import Mathlib

/-!
Verification development for the NBA injury-report service
(`src/nba-service/app/main.py`).  Strings are modelled as `List Char`
(Python `str` is a sequence of code points; all data handled by the core
is ASCII).  Python regular expressions used by the source are embedded as
deterministic matchers; each doc comment names the Python function or
regex the definition translates.
-/

abbrev Str := List Char

/-- Python whitespace for `str.strip`, `str.split` and regex `\s`
(ASCII range): space, tab, newline, carriage return, vertical tab,
form feed. -/
def isSpace (c : Char) : Bool :=
  c == ' ' || c == '\t' || c == '\n' || c == '\r' || c.toNat == 11 || c.toNat == 12

/-- Python `str.strip()`: drop whitespace from both ends. -/
def pyStrip (s : Str) : Str :=
  ((s.dropWhile isSpace).reverse.dropWhile isSpace).reverse

/-- Python truthiness of an optional string: `None` and `""` are falsy. -/
def truthy : Option Str → Bool
  | none => false
  | some s => !s.isEmpty

/-- Turn a string into `None` when empty, mirroring Python `s or None`
and `return line.strip() or None`. -/
def optOfStr (s : Str) : Option Str :=
  if s.isEmpty then none else some s

/-- Word character for the regex `\b` boundary: `[A-Za-z0-9_]`
(all inputs the source matches against are ASCII). -/
def isWordChar (c : Char) : Bool := c.isAlphanum || c == '_'

/-- Case-insensitive character equality (ASCII lowering, as `re.I`
and `str.lower` behave on the ASCII data handled by the source). -/
def ciEq (a b : Char) : Bool := a.toLower == b.toLower

/-- Case-insensitive literal match of `pat` at the front of `s`. -/
def ciStarts : Str → Str → Bool
  | [], _ => true
  | _ :: _, [] => false
  | p :: ps, c :: cs => ciEq p c && ciStarts ps cs

/-- Case-sensitive literal match of `pat` at the front of `s`
(Python `str.startswith`). -/
def strStarts : Str → Str → Bool
  | [], _ => true
  | _ :: _, [] => false
  | p :: ps, c :: cs => p == c && strStarts ps cs

/-- The fixed status vocabulary `STATUS_OPTIONS` of the source,
in its list order. -/
def STATUS_OPTIONS : List Str :=
  [ "Game Time Decision".toList
  , "Not With Team".toList
  , "Questionable".toList
  , "Probable".toList
  , "Doubtful".toList
  , "Available".toList
  , "Suspended".toList
  , "Out".toList ]

/-- Whole-word case-insensitive occurrence of `needle` at index `i` of
`hay`: the semantics of a match of `re.search(rf"\b{needle}\b", hay, re.I)`
starting at `i`, for a needle that begins and ends with a word character
(every member of `STATUS_OPTIONS` does). -/
def wordMatchAt (needle hay : Str) (i : Nat) : Bool :=
  ciStarts needle (hay.drop i)
    && (i == 0 || !isWordChar (hay.getD (i - 1) ' '))
    && !isWordChar (hay.getD (i + needle.length) ' ')

/-- Scan for the least index `≥ i` at which `wordMatchAt` holds,
with enough fuel to cover the whole haystack.  This is the leftmost-match
rule of `re.search`. -/
def searchIdx (needle hay : Str) : Nat → Nat → Option Nat
  | _, 0 => none
  | i, fuel + 1 =>
      if wordMatchAt needle hay i then some i
      else searchIdx needle hay (i + 1) fuel

/-- Embeds `re.search(rf"\b{re.escape(status)}\b", text, flags=re.I)`:
the index of the leftmost whole-word case-insensitive occurrence. -/
def reSearchWord (needle hay : Str) : Option Nat :=
  searchIdx needle hay 0 (hay.length + 1)

/-- First status of `STATUS_OPTIONS` (in list order) that occurs in
`text`, with the index of its leftmost occurrence: the loop of
`_parse_player_status_reason`. -/
def findStatus : List Str → Str → Option (Str × Nat)
  | [], _ => none
  | s :: rest, text =>
      match reSearchWord s text with
      | some i => some (s, i)
      | none => findStatus rest text

/-- Embeds `_parse_player_status_reason`: returns
`(player, status, reason)`. -/
def parsePlayerStatusReason (text : Str) : Option Str × Option Str × Option Str :=
  if text.isEmpty then (none, none, none)
  else
    match findStatus STATUS_OPTIONS text with
    | some (s, i) =>
        (optOfStr (pyStrip (text.take i)), some s,
         optOfStr (pyStrip (text.drop (i + s.length))))
    | none => (some (pyStrip text), none, none)

/-- Python `any(re.search(...) for status in STATUS_OPTIONS)` used by the
line parser's continuation test. -/
def hasStatusWord (line : Str) : Bool :=
  STATUS_OPTIONS.any (fun s => (reSearchWord s line).isSome)

example :
    parsePlayerStatusReason "LeBron James Questionable Left ankle soreness".toList
      = (some "LeBron James".toList, some "Questionable".toList,
         some "Left ankle soreness".toList) := by decide

example :
    parsePlayerStatusReason "Some note with no status".toList
      = (some "Some note with no status".toList, none, none) := by decide

/-- Exactly one digit character, returned with the remainder. -/
def digit1 (s : Str) : Option (Char × Str) :=
  match s with
  | c :: cs => if c.isDigit then some (c, cs) else none
  | [] => none

/-- Exactly `n` digit characters, returned with the remainder
(a `\d{n}` regex atom). -/
def exactDigits : Nat → Str → Option (Str × Str)
  | 0, s => some ([], s)
  | n + 1, s =>
      match digit1 s with
      | some (c, cs) =>
          match exactDigits n cs with
          | some (d, r) => some (c :: d, r)
          | none => none
      | none => none

/-- One or more digits, maximal munch (a `\d+` regex atom; maximal munch
is faithful here because every continuation the source pairs it with
starts with a non-digit). -/
def digitsPlus (s : Str) : Option (Str × Str) :=
  match s with
  | c :: cs =>
      if c.isDigit then
        some (c :: cs.takeWhile (fun x => x.isDigit), cs.dropWhile (fun x => x.isDigit))
      else none
  | [] => none

/-- Case-insensitive literal, returning the remainder. -/
def ciLit : Str → Str → Option Str
  | [], s => some s
  | _ :: _, [] => none
  | p :: ps, c :: cs => if ciEq p c then ciLit ps cs else none

/-- Consumes `Page\s*\d+\s*of\s*\d+` case-insensitively at the front of
`s` and returns the remainder; `none` if it does not match there.
Maximal munch on `\s*` and `\d+` is faithful: the following literal
never begins with a space or digit. -/
def pageCore (s : Str) : Option Str :=
  match ciLit "Page".toList s with
  | none => none
  | some r =>
      match digitsPlus (r.dropWhile isSpace) with
      | none => none
      | some (_, r) =>
          match ciLit "of".toList (r.dropWhile isSpace) with
          | none => none
          | some r =>
              match digitsPlus (r.dropWhile isSpace) with
              | none => none
              | some (_, r) => some r

/-- Whether the suffix `s` is exactly `\s*Page\s*\d+\s*of\s*\d+\s*`
(the spaced trailing-marker regex of `_clean_injury_line`, which must
reach the end of the line because of its `$` anchor). -/
def spacedMarkerSuffix (s : Str) : Bool :=
  match pageCore (s.dropWhile isSpace) with
  | some r => r.all isSpace
  | none => false

/-- Whether the suffix `s` is exactly `\s*Page\d+of\d+\s*` (the unspaced
trailing-marker regex of `_clean_injury_line`). -/
def unspacedMarkerSuffix (s : Str) : Bool :=
  match ciLit "Page".toList (s.dropWhile isSpace) with
  | none => false
  | some r =>
      match digitsPlus r with
      | none => false
      | some (_, r) =>
          match ciLit "of".toList r with
          | none => false
          | some r =>
              match digitsPlus r with
              | none => false
              | some (_, r) => r.all isSpace

/-- Index of the first (leftmost) suffix of `l` satisfying `p`:
the scan order of `re.sub` looking for a `$`-anchored match. -/
def firstSufIdx (p : Str → Bool) : Str → Option Nat
  | [] => if p [] then some 0 else none
  | c :: cs =>
      if p (c :: cs) then some 0
      else (firstSufIdx p cs).map (fun i => i + 1)

/-- Embeds one `$`-anchored `re.sub(pattern, "", line)`: remove the
leftmost suffix matching `p`, if any. -/
def stripSuf (p : Str → Bool) (l : Str) : Str :=
  match firstSufIdx p l with
  | some i => l.take i
  | none => l

/-- Embeds `_clean_injury_line`. -/
def cleanInjuryLine (l : Str) : Option Str :=
  if l.isEmpty then none
  else if (pageCore l).isSome then none
  else optOfStr (pyStrip (stripSuf unspacedMarkerSuffix (stripSuf spacedMarkerSuffix l)))

example : cleanInjuryLine "Page 2 of 10".toList = none := by decide
example : cleanInjuryLine "Lakers roster Page 2 of 10".toList
    = some "Lakers roster".toList := by decide
example : cleanInjuryLine "Lakers roster Page2of10".toList
    = some "Lakers roster".toList := by decide
example : cleanInjuryLine "  Page 1 of 2 ".toList = none := by decide
example : cleanInjuryLine "left ankle".toList = some "left ankle".toList := by decide

/-- Collapse every run of whitespace to one space (the regex
`re.sub(r"\s+", " ", text)`). -/
def collapseWS : Str → Str
  | [] => []
  | [c] => [if isSpace c then ' ' else c]
  | a :: b :: cs =>
      if isSpace a && isSpace b then collapseWS (b :: cs)
      else (if isSpace a then ' ' else a) :: collapseWS (b :: cs)

/-- Embeds `_normalize_header`: `str(value or "")`, newlines to spaces,
whitespace runs collapsed, stripped, lower-cased. -/
def normalizeHeader (v : Option Str) : Str :=
  let t := (v.getD []).map (fun c => if c == '\n' then ' ' else c)
  (pyStrip (collapseWS t)).map Char.toLower

/-- The `alias_map` of `_map_table_headers`: normalized header label to
canonical field name. -/
def aliasPairs : List (Str × Str) :=
  [ ("game date".toList, "gameDate".toList)
  , ("gamedate".toList, "gameDate".toList)
  , ("date".toList, "gameDate".toList)
  , ("game time".toList, "gameTime".toList)
  , ("gametime".toList, "gameTime".toList)
  , ("matchup".toList, "matchup".toList)
  , ("team".toList, "team".toList)
  , ("player name".toList, "playerName".toList)
  , ("player".toList, "playerName".toList)
  , ("current status".toList, "status".toList)
  , ("status".toList, "status".toList)
  , ("injury/illness".toList, "injury".toList)
  , ("injury".toList, "injury".toList)
  , ("reason".toList, "reason".toList)
  , ("remarks".toList, "notes".toList)
  , ("comment".toList, "notes".toList)
  , ("notes".toList, "notes".toList)
  , ("est. return date".toList, "returnDate".toList)
  , ("est return date".toList, "returnDate".toList) ]

/-- Python `alias_map.get(normalized)`. -/
def aliasLookup (h : Str) : Option Str :=
  (aliasPairs.find? (fun p => p.1 == h)).map (fun p => p.2)

/-- An injury entry: the Python dict with optional canonical fields and,
for table-derived entries, the `raw` map (an insertion-ordered
association list, matching Python dict behaviour). -/
structure Entry where
  gameDate : Option Str := none
  gameTime : Option Str := none
  matchup : Option Str := none
  team : Option Str := none
  playerName : Option Str := none
  status : Option Str := none
  reason : Option Str := none
  injury : Option Str := none
  notes : Option Str := none
  returnDate : Option Str := none
  raw : Option (List (Str × Str)) := none
deriving DecidableEq, Repr

/-- Assignment `entry[mapping[idx]] = value` for a canonical field name
produced by the alias table. -/
def setCanonical (e : Entry) (name : Str) (v : Str) : Entry :=
  if name == "gameDate".toList then { e with gameDate := some v }
  else if name == "gameTime".toList then { e with gameTime := some v }
  else if name == "matchup".toList then { e with matchup := some v }
  else if name == "team".toList then { e with team := some v }
  else if name == "playerName".toList then { e with playerName := some v }
  else if name == "status".toList then { e with status := some v }
  else if name == "reason".toList then { e with reason := some v }
  else if name == "injury".toList then { e with injury := some v }
  else if name == "notes".toList then { e with notes := some v }
  else if name == "returnDate".toList then { e with returnDate := some v }
  else e

/-- Python dict assignment `d[k] = v` on an insertion-ordered
association list: update in place if the key exists, else append. -/
def dictInsert : List (Str × Str) → Str → Str → List (Str × Str)
  | [], k, v => [(k, v)]
  | (k0, v0) :: rest, k, v =>
      if k0 == k then (k0, v) :: rest
      else (k0, v0) :: dictInsert rest k v

/-- Python dict read `d[k]` / `d.get(k)`. -/
def dictLookup (d : List (Str × Str)) (k : Str) : Option Str :=
  (d.find? (fun p => p.1 == k)).map (fun p => p.2)

/-- Decimal digits of an index, for the positional fallback label. -/
def natStr (n : Nat) : Str := (toString n).toList

/-- The positional fallback label `col_<idx>`. -/
def colKey (idx : Nat) : Str := "col_".toList ++ natStr idx

/-- The key under which cell `idx` is recorded in the `raw` map:
`normalized_headers[idx] if idx < len(normalized_headers) else col_<idx>`,
with `col_<idx>` again when that label is empty (`header_label or ...`). -/
def rowKey (normHeaders : List Str) (idx : Nat) : Str :=
  let lbl := normHeaders.getD idx (colKey idx)
  if lbl.isEmpty then colKey idx else lbl

/-- The `mapping` of `_map_table_headers`: index to canonical field, in
index order, for headers the alias table recognizes. -/
def mkMappingAux (i : Nat) : List Str → List (Nat × Str)
  | [] => []
  | h :: hs =>
      match aliasLookup h with
      | some canon => (i, canon) :: mkMappingAux (i + 1) hs
      | none => mkMappingAux (i + 1) hs

def mkMapping (normHeaders : List Str) : List (Nat × Str) :=
  mkMappingAux 0 normHeaders

/-- Python `idx in mapping` / `mapping[idx]`. -/
def mappingLookup (m : List (Nat × Str)) (idx : Nat) : Option Str :=
  (m.find? (fun p => p.1 == idx)).map (fun p => p.2)

/-- Cell cleaning of `_build_entries_from_table`:
`str(cell or "").replace("\n", " ").strip()`. -/
def cleanCell (c : Option Str) : Str :=
  pyStrip ((c.getD []).map (fun ch => if ch == '\n' then ' ' else ch))

/-- The per-row loop body of `_build_entries_from_table`: accumulate the
canonical fields and the `raw` map over the row's cells. -/
def buildRowAux (mapping : List (Nat × Str)) (normHeaders : List Str) :
    Nat → List Str → Entry → List (Str × Str) → Entry × List (Str × Str)
  | _, [], e, raw => (e, raw)
  | idx, v :: vs, e, raw =>
      let raw := dictInsert raw (rowKey normHeaders idx) v
      let e :=
        match mappingLookup mapping idx with
        | some canon => setCanonical e canon v
        | none => e
      buildRowAux mapping normHeaders (idx + 1) vs e raw

/-- The entry built from one cleaned table row. -/
def mkRowEntry (mapping : List (Nat × Str)) (normHeaders : List Str)
    (rowValues : List Str) : Entry :=
  let p := buildRowAux mapping normHeaders 0 rowValues {} []
  { p.1 with raw := some p.2 }

/-- One row of `_build_entries_from_table`: `none` when the row is
skipped (empty list, all-empty cells, or embedded duplicate header
row). -/
def rowEntry? (mapping : List (Nat × Str)) (normHeaders : List Str)
    (row : List (Option Str)) : Option Entry :=
  if row.isEmpty then none
  else
    let rowValues := row.map cleanCell
    if rowValues.all (fun v => v.isEmpty) then none
    else if rowValues.any (fun v =>
        let n := normalizeHeader (some v)
        n == "player name".toList || n == "player".toList) then none
    else some (mkRowEntry mapping normHeaders rowValues)

/-- Embeds `_build_entries_from_table`. -/
def buildEntriesFromTable (table : List (List (Option Str))) : List Entry :=
  match table with
  | [] => []
  | headers :: rows =>
      if rows.isEmpty then []
      else
        let normHeaders := headers.map normalizeHeader
        let mapping := mkMapping normHeaders
        if mapping.isEmpty then []
        else rows.filterMap (rowEntry? mapping normHeaders)

example :
    buildEntriesFromTable
      [[some "Player Name".toList, some "Current Status".toList, some "Notes".toList],
       [some "A. Player".toList, some "Out".toList, some "knee".toList]]
      = [{ playerName := some "A. Player".toList, status := some "Out".toList,
           notes := some "knee".toList,
           raw := some [("player name".toList, "A. Player".toList),
                        ("current status".toList, "Out".toList),
                        ("notes".toList, "knee".toList)] }] := by decide

/-- Single literal character, returning the remainder. -/
def litc (c : Char) : Str → Option Str
  | x :: xs => if x == c then some xs else none
  | [] => none

/-- Regex `\s+`, maximal munch (faithful: every atom the source places
after it cannot match a whitespace character). -/
def wsPlus (s : Str) : Option Str :=
  match s with
  | c :: cs => if isSpace c then some (cs.dropWhile isSpace) else none
  | [] => none

/-- Regex `(\S+)`, maximal munch (faithful: always followed by `\s+` or
`$`-reaching `(.*)` in the source's patterns). -/
def tokPlus (s : Str) : Option (Str × Str) :=
  match s with
  | c :: cs =>
      if isSpace c then none
      else some (c :: cs.takeWhile (fun x => !isSpace x),
                 cs.dropWhile (fun x => !isSpace x))
  | [] => none

/-- Regex `(\d{2}/\d{2}/\d{4})` at the front of `s`. -/
def dateTok (s : Str) : Option (Str × Str) :=
  match exactDigits 2 s with
  | none => none
  | some (a, r) =>
      match litc '/' r with
      | none => none
      | some r =>
          match exactDigits 2 r with
          | none => none
          | some (b, r) =>
              match litc '/' r with
              | none => none
              | some r =>
                  match exactDigits 4 r with
                  | none => none
                  | some (y, r) => some (a ++ '/' :: b ++ '/' :: y, r)

/-- Continuation of the time token after its hour digits `hd`: the
`:\d{2}\(ET\)` tail. -/
def timeTail (hd : Str) (r : Str) : Option (Str × Str) :=
  match litc ':' r with
  | none => none
  | some r2 =>
      match exactDigits 2 r2 with
      | none => none
      | some (mm, r3) =>
          match litc '(' r3 with
          | none => none
          | some r4 =>
              match litc 'E' r4 with
              | none => none
              | some r5 =>
                  match litc 'T' r5 with
                  | none => none
                  | some r6 =>
                      match litc ')' r6 with
                      | none => none
                      | some r7 =>
                          some (hd ++ ':' :: mm ++ "(ET)".toList, r7)

/-- Regex `(\d{1,2}:\d{2}\(ET\))` at the front of `s`, with the
greedy-then-backtrack choice of one or two hour digits. -/
def timeTok (s : Str) : Option (Str × Str) :=
  match s with
  | a :: b :: rest =>
      if a.isDigit && b.isDigit then timeTail [a, b] rest
      else if a.isDigit then timeTail [a] (b :: rest)
      else none
  | _ => none

/-- The full-header regex of `_parse_injury_report_text`:
`^(\d{2}/\d{2}/\d{4})\s+(\d{1,2}:\d{2}\(ET\))\s+(\S+)\s+(\S+)\s+(.*)$`,
returning the five captured groups. -/
def matchFullHeader (s : Str) :
    Option (Str × Str × Str × Str × Str) :=
  match dateTok s with
  | none => none
  | some (d, r) =>
      match wsPlus r with
      | none => none
      | some r =>
          match timeTok r with
          | none => none
          | some (t, r) =>
              match wsPlus r with
              | none => none
              | some r =>
                  match tokPlus r with
                  | none => none
                  | some (m, r) =>
                      match wsPlus r with
                      | none => none
                      | some r =>
                          match tokPlus r with
                          | none => none
                          | some (tm, r) =>
                              match wsPlus r with
                              | none => none
                              | some rest => some (d, t, m, tm, rest)

/-- The partial-header regex
`^(\d{1,2}:\d{2}\(ET\))\s+(\S+)\s+(\S+)\s+(.*)$`. -/
def matchPartialHeader (s : Str) : Option (Str × Str × Str × Str) :=
  match timeTok s with
  | none => none
  | some (t, r) =>
      match wsPlus r with
      | none => none
      | some r =>
          match tokPlus r with
          | none => none
          | some (m, r) =>
              match wsPlus r with
              | none => none
              | some r =>
                  match tokPlus r with
                  | none => none
                  | some (tm, r) =>
                      match wsPlus r with
                      | none => none
                      | some rest => some (t, m, tm, rest)

/-- Parser state for one document extraction.  `entries` is the
document-level output list; `lastIdx` is the position in `entries` of
the dict object the Python code aliases as `last_entry` /
`context["lastEntry"]` (mutating it through the alias is modelled by
updating the list at that index).  `cur*` are the function-local
`current_*` variables of `_parse_injury_report_text`; `ctx*` are the
fields of the shared `context` dict. -/
structure PState where
  entries : List Entry := []
  lastIdx : Option Nat := none
  curDate : Option Str := none
  curTime : Option Str := none
  curMatchup : Option Str := none
  curTeam : Option Str := none
  ctxDate : Option Str := none
  ctxTime : Option Str := none
  ctxMatchup : Option Str := none
  ctxTeam : Option Str := none
deriving DecidableEq, Repr

/-- One field of `_apply_injury_context`:
`if not entry.get(key) and context.get(key): entry[key] = context[key]`. -/
def fillField (ev cv : Option Str) : Option Str :=
  if !truthy ev && truthy cv then cv else ev

/-- Embeds `_apply_injury_context`. -/
def applyInjuryContext (e : Entry) (s : PState) : Entry :=
  { e with
    gameDate := fillField e.gameDate s.ctxDate
    gameTime := fillField e.gameTime s.ctxTime
    matchup := fillField e.matchup s.ctxMatchup
    team := fillField e.team s.ctxTeam }

/-- One field of `_update_injury_context`:
`if entry.get(key): context[key] = entry.get(key)`. -/
def updField (ev cv : Option Str) : Option Str :=
  if truthy ev then ev else cv

/-- Embeds `_update_injury_context`; `idx` is the position in the
output list of the entry becoming `context["lastEntry"]`. -/
def updateInjuryContext (s : PState) (e : Entry) (idx : Nat) : PState :=
  { s with
    ctxDate := updField e.gameDate s.ctxDate
    ctxTime := updField e.gameTime s.ctxTime
    ctxMatchup := updField e.matchup s.ctxMatchup
    ctxTeam := updField e.team s.ctxTeam
    lastIdx := some idx }

/-- The entry literal built by the line parser's emitting branches, from
the `current_*` variables and a `(player, status, reason)` triple. -/
def mkCurEntry (s : PState) (psr : Option Str × Option Str × Option Str) : Entry :=
  { gameDate := s.curDate, gameTime := s.curTime, matchup := s.curMatchup,
    team := s.curTeam, playerName := psr.1, status := psr.2.1,
    reason := psr.2.2 }

/-- The emission sequence common to the line parser's branches:
`_apply_injury_context`, `entries.append`, `last_entry = entry`,
`_update_injury_context`. -/
def emitLineEntry (s : PState) (e : Entry) : PState :=
  let e' := applyInjuryContext e s
  updateInjuryContext { s with entries := s.entries ++ [e'] } e' s.entries.length

/-- The continuation-line reason text:
`f"{existing_reason}{separator}{line}"` with a space separator exactly
when the existing reason is non-empty. -/
def contReason (old : Option Str) (line : Str) : Str :=
  let existing := old.getD []
  if existing.isEmpty then line else existing ++ ' ' :: line

/-- Python `line.split()`: whitespace-separated tokens, no empties. -/
def splitWSAux : Str → Str → List Str
  | [], acc => if acc.isEmpty then [] else [acc.reverse]
  | c :: cs, acc =>
      if isSpace c then
        if acc.isEmpty then splitWSAux cs [] else acc.reverse :: splitWSAux cs []
      else splitWSAux cs (c :: acc)

def splitWS (s : Str) : List Str := splitWSAux s []

/-- Python `" ".join(tokens)`. -/
def joinWS : List Str → Str
  | [] => []
  | [t] => t
  | t :: ts => t ++ ' ' :: joinWS ts

/-- One iteration of the line loop of `_parse_injury_report_text`. -/
def stepLine (s : PState) (rawLine : Str) : PState :=
  let line := pyStrip rawLine
  if line.isEmpty then s
  else if strStarts "injury report".toList (line.map Char.toLower) then s
  else if strStarts "gamedate".toList
      ((line.filter (fun c => c != ' ')).map Char.toLower) then s
  else
    match cleanInjuryLine line with
    | none => s
    | some line =>
        match matchFullHeader line with
        | some (d, t, mu, tm, rest) =>
            let s := { s with curDate := some d, curTime := some t,
                              curMatchup := some mu, curTeam := some tm }
            emitLineEntry s (mkCurEntry s (parsePlayerStatusReason (pyStrip rest)))
        | none =>
            match matchPartialHeader line with
            | some (t, mu, tm, rest) =>
                let s := { s with curTime := some t, curMatchup := some mu,
                                  curTeam := some tm }
                emitLineEntry s (mkCurEntry s (parsePlayerStatusReason (pyStrip rest)))
            | none =>
                if !line.contains ',' && !hasStatusWord line then
                  match s.lastIdx with
                  | none => s
                  | some i =>
                      let old := s.entries.getD i {}
                      let upd := { old with reason := some (contReason old.reason line) }
                      { s with entries := s.entries.set i upd }
                else
                  match splitWS line with
                  | [] => s
                  | t0 :: restToks =>
                      let s2 :=
                        if t0.contains ',' then s
                        else { s with curTeam := some t0 }
                      let rest :=
                        if t0.contains ',' then line
                        else pyStrip (joinWS restToks)
                      let psr := parsePlayerStatusReason rest
                      if truthy psr.1 || truthy psr.2.1 || truthy psr.2.2 then
                        emitLineEntry s2 (mkCurEntry s2 psr)
                      else s2

/-- Embeds `_parse_injury_report_text` for one page: initialize the
`current_*` locals from the context dict, then fold the line loop. -/
def runLines (s : PState) (lines : List Str) : PState :=
  lines.foldl stepLine
    { s with curDate := s.ctxDate, curTime := s.ctxTime,
             curMatchup := s.ctxMatchup, curTeam := s.ctxTeam }

/-- The caller-side loop over one table's entries in
`_extract_injury_report_entries`: apply then update the context for
each entry, in order; `base` is the output-list position the first of
these entries will occupy. -/
def tableCtxFold (s : PState) (base : Nat) : List Entry → PState × List Entry
  | [] => (s, [])
  | e :: es =>
      let e' := applyInjuryContext e s
      let s' := updateInjuryContext s e' base
      let (sf, es') := tableCtxFold s' (base + 1) es
      (sf, e' :: es')

/-- The table fallback of `_extract_injury_report_entries`: build each
table's entries, thread the context through them, extend the output. -/
def processTables (s : PState) : List (List (List (Option Str))) → PState
  | [] => s
  | t :: ts =>
      let tes := buildEntriesFromTable t
      let (s2, tes') := tableCtxFold s s.entries.length tes
      processTables { s2 with entries := s2.entries ++ tes' } ts

/-- One page as supplied by the (external) PDF primitive: its extracted
text as lines, and its extracted tables. -/
structure PdfPage where
  lines : List Str
  tables : List (List (List (Option Str)))

/-- The per-page body of `_extract_injury_report_entries`: run the line
parser; only when it produced zero entries for this page
(`if not text_entries:`), run the table parser on the page's tables. -/
def processPage (s : PState) (pg : PdfPage) : PState :=
  let s1 := runLines s pg.lines
  if s1.entries.length == s.entries.length then processTables s1 pg.tables
  else s1

/-- Embeds `_extract_injury_report_entries` from the page sequence on:
fold the pages over a fresh context. -/
def extractInjuryReportEntries (pages : List PdfPage) : List Entry :=
  (pages.foldl processPage {}).entries

example :
    extractInjuryReportEntries
      [⟨["01/15/2025 7:00(ET) LAL@BOS LAL LeBron James Questionable Left ankle".toList], []⟩]
      = [{ gameDate := some "01/15/2025".toList,
           gameTime := some "7:00(ET)".toList,
           matchup := some "LAL@BOS".toList,
           team := some "LAL".toList,
           playerName := some "LeBron James".toList,
           status := some "Questionable".toList,
           reason := some "Left ankle".toList }] := by decide

/-- Filename component used by `_extract_report_metadata_from_url`:
`os.path.basename(urlparse(url).path)`, i.e. the segment after the last
slash once query and fragment are cut off (modelled for the absolute
http(s) URLs the locator produces). -/
def fileNameOf (url : Str) : Str :=
  let core := (url.takeWhile (fun c => c != '?')).takeWhile (fun c => c != '#')
  (core.reverse.takeWhile (fun c => c != '/')).reverse

/-- Regex `[-_]?`: consume one separator if present (faithful: the atom
after it only matches digits, which a present separator can never
satisfy, so the regex's backtracking alternative always fails). -/
def optSep (s : Str) : Str :=
  match s with
  | c :: cs => if c == '-' || c == '_' then cs else s
  | [] => s

/-- The date pattern `(\d{4})[-_]?(\d{2})[-_]?(\d{2})` anchored at the
front of `s`, returning the three digit groups. -/
def dateAt (s : Str) : Option (Str × Str × Str) :=
  match exactDigits 4 s with
  | none => none
  | some (y, r) =>
      match exactDigits 2 (optSep r) with
      | none => none
      | some (mo, r) =>
          match exactDigits 2 (optSep r) with
          | none => none
          | some (d, _) => some (y, mo, d)

/-- `re.search` of the date pattern: leftmost match. -/
def searchDate : Str → Option (Str × Str × Str)
  | [] => none
  | c :: cs =>
      match dateAt (c :: cs) with
      | some v => some v
      | none => searchDate cs

/-- The optional minutes group `(?:[:_]?(\d{2}))?` with the regex's
greedy alternative order: separator plus two digits, two digits, or
nothing; returns the minutes (if captured) and the remainder. -/
def minutesOpt (s : Str) : Option Str × Str :=
  match s with
  | c :: cs =>
      if c == ':' || c == '_' then
        match exactDigits 2 cs with
        | some (mm, r) => (some mm, r)
        | none => (none, s)
      else
        match exactDigits 2 s with
        | some (mm, r) => (some mm, r)
        | none => (none, s)
  | [] => (none, [])

/-- The `AM|PM` tail (case-insensitive), preceded by `\s*`; returns
`true` for PM. -/
def ampmAt (s : Str) : Option Bool :=
  match s.dropWhile isSpace with
  | a :: m :: _ =>
      if ciEq a 'A' && ciEq m 'M' then some false
      else if ciEq a 'P' && ciEq m 'M' then some true
      else none
  | _ => none

/-- Numeric value of a digit string. -/
def natOfDigits (s : Str) : Nat :=
  s.foldl (fun acc c => acc * 10 + (c.toNat - 48)) 0

/-- The time pattern `(\d{1,2})(?:[:_]?(\d{2}))?\s*(AM|PM)` (with `re.I`)
anchored at the front of `s`: hour, minutes (0 when absent), PM flag.
Tries the two-digit hour first and backtracks to one digit, as the
greedy `\d{1,2}` does. -/
def timeAt (s : Str) : Option (Nat × Nat × Bool) :=
  let tryFrom := fun (h : Str) (r : Str) =>
    let (mopt, r2) := minutesOpt r
    match ampmAt r2 with
    | some pm => some (natOfDigits h, (mopt.map natOfDigits).getD 0, pm)
    | none => none
  match s with
  | a :: b :: rest =>
      if a.isDigit && b.isDigit then
        match tryFrom [a, b] rest with
        | some v => some v
        | none => tryFrom [a] (b :: rest)
      else if a.isDigit then tryFrom [a] (b :: rest)
      else none
  | _ => none

/-- `re.search` of the time pattern: leftmost match. -/
def searchTime : Str → Option (Nat × Nat × Bool)
  | [] => none
  | c :: cs =>
      match timeAt (c :: cs) with
      | some v => some v
      | none => searchTime cs

/-- Gregorian month length, as `datetime` validates it. -/
def daysInMonth (y mo : Nat) : Nat :=
  if mo == 2 then
    if y % 4 == 0 && (y % 100 != 0 || y % 400 == 0) then 29 else 28
  else if mo == 4 || mo == 6 || mo == 9 || mo == 11 then 30
  else 31

/-- `datetime.strptime(..., "%Y-%m-%d")` acceptance of the extracted
date: year at least 1, month 1-12, day valid for the month. -/
def validDate (y mo d : Nat) : Bool :=
  1 ≤ y && 1 ≤ mo && mo ≤ 12 && 1 ≤ d && d ≤ daysInMonth y mo

/-- A `datetime` value `(y, mo, d, h24, min)` encoded as one natural
number, order-isomorphic to datetime comparison on the in-range values
the locator produces. -/
def dtEncode (y mo d h mi : Nat) : Nat :=
  (((y * 13 + mo) * 32 + d) * 24 + h) * 60 + mi

/-- `datetime.min`. -/
def dtMin : Nat := dtEncode 1 1 1 0 0

/-- 12-hour to 24-hour conversion done by `%I %p`. -/
def hour24 (h : Nat) (pm : Bool) : Nat :=
  if pm then (if h == 12 then 12 else h + 12)
  else (if h == 12 then 0 else h)

/-- The sortable timestamp `_select_latest_report_link` computes for one
link: metadata extraction from the filename, then the `strptime`
round-trip, falling back to `datetime.min` whenever anything fails. -/
def linkScore (url : Str) : Nat :=
  let fn := fileNameOf url
  match searchDate fn with
  | none => dtMin
  | some (ys, mos, ds) =>
      let y := natOfDigits ys
      let mo := natOfDigits mos
      let d := natOfDigits ds
      match searchTime fn with
      | some (h, mi, pm) =>
          if validDate y mo d && 1 ≤ h && h ≤ 12 && mi ≤ 59 then
            dtEncode y mo d (hour24 h pm) mi
          else dtMin
      | none => if validDate y mo d then dtEncode y mo d 0 0 else dtMin

/-- Python string comparison (lexicographic on code points), used as the
third tuple component of the sort. -/
def strLt : Str → Str → Bool
  | _, [] => false
  | [], _ :: _ => true
  | a :: as, b :: bs =>
      if a < b then true else if b < a then false else strLt as bs

/-- Python tuple comparison on `(datetime, int, str)`. -/
def tupleLt (a b : Nat × Nat × Str) : Bool :=
  if a.1 < b.1 then true
  else if b.1 < a.1 then false
  else if a.2.1 < b.2.1 then true
  else if b.2.1 < a.2.1 then false
  else strLt a.2.2 b.2.2

/-- The `scored` list: `(timestamp, original index, link)` per link, in
order (`for idx, link in enumerate(links)`). -/
def scoreFrom (i : Nat) : List Str → List (Nat × Nat × Str)
  | [] => []
  | l :: ls => (linkScore l, i, l) :: scoreFrom (i + 1) ls

/-- Greatest element of `acc :: xs` under `tupleLt`.  After
`scored.sort(reverse=True)`, `scored[0]` is exactly this maximum (the
tuples are pairwise distinct in their index component, so the sort's
head is unique). -/
def pickTop (acc : Nat × Nat × Str) : List (Nat × Nat × Str) → Nat × Nat × Str
  | [] => acc
  | x :: xs => pickTop (if tupleLt acc x then x else acc) xs

/-- Embeds `_select_latest_report_link`; the `ValueError` raised on an
empty list is modelled as `none`. -/
def selectLatestReportLink (links : List Str) : Option Str :=
  match scoreFrom 0 links with
  | [] => none
  | x :: xs => some (pickTop x xs).2.2

example :
    selectLatestReportLink
      ["https://example.com/injury-report-20250115.pdf".toList,
       "https://example.com/injury-report-20250114.pdf".toList]
      = some "https://example.com/injury-report-20250115.pdf".toList := by decide

example : linkScore "https://example.com/injury_2025-01-15_5PM.pdf".toList
    = dtEncode 2025 1 15 17 0 := by decide

example :
    selectLatestReportLink
      ["https://example.com/injury-a.pdf".toList,
       "https://example.com/injury-b.pdf".toList]
      = some "https://example.com/injury-b.pdf".toList := by decide

lemma strLt_irrefl (s : Str) : strLt s s = false := by
  induction s with
  | nil => rfl
  | cons c cs ih => simp [strLt, ih]

lemma strLt_cons (x z : Char) (as cs : Str) :
    strLt (x :: as) (z :: cs)
      = if x.toNat < z.toNat then true
        else if z.toNat < x.toNat then false else strLt as cs := rfl

lemma strLt_inv {x z : Char} {as cs : Str}
    (hc : strLt (x :: as) (z :: cs) = true) :
    x.toNat < z.toNat ∨
      (x.toNat = z.toNat ∧ strLt as cs = true) := by
  rw [strLt_cons] at hc
  by_cases h1 : x.toNat < z.toNat
  · exact Or.inl h1
  · rw [if_neg h1] at hc
    by_cases h2 : z.toNat < x.toNat
    · rw [if_pos h2] at hc; exact Bool.noConfusion hc
    · rw [if_neg h2] at hc
      exact Or.inr ⟨by omega, hc⟩

lemma strLt_cons_of_lt {x z : Char} (as cs : Str) (h : x.toNat < z.toNat) :
    strLt (x :: as) (z :: cs) = true := by
  rw [strLt_cons, if_pos h]

lemma strLt_cons_of_eq {x z : Char} (as cs : Str) (h : x.toNat = z.toNat) :
    strLt (x :: as) (z :: cs) = strLt as cs := by
  rw [strLt_cons, if_neg (by omega : ¬ x.toNat < z.toNat),
    if_neg (by omega : ¬ z.toNat < x.toNat)]

lemma strLt_cotrans : ∀ a c, strLt a c = true → ∀ b, strLt a b = true ∨ strLt b c = true := by
  intro a
  induction a with
  | nil =>
      intro c hc b
      cases b with
      | nil => exact Or.inr hc
      | cons y ys => exact Or.inl rfl
  | cons x as ih =>
      intro c hc b
      cases c with
      | nil => exact Bool.noConfusion hc
      | cons z cs =>
          cases b with
          | nil => exact Or.inr rfl
          | cons y ys =>
              by_cases hxy : x.toNat < y.toNat
              · exact Or.inl (strLt_cons_of_lt _ _ hxy)
              · rcases strLt_inv hc with h | ⟨heq, hrec⟩
                · exact Or.inr (strLt_cons_of_lt _ _ (by omega))
                · by_cases hyx : y.toNat < x.toNat
                  · exact Or.inr (strLt_cons_of_lt _ _ (by omega))
                  · rcases ih cs hrec ys with h | h
                    · exact Or.inl (by rw [strLt_cons_of_eq _ _ (by omega)]; exact h)
                    · exact Or.inr (by rw [strLt_cons_of_eq _ _ (by omega)]; exact h)

lemma tupleLt_irrefl (a : Nat × Nat × Str) : tupleLt a a = false := by
  simp [tupleLt, strLt_irrefl]

lemma tupleLt_inv {a b : Nat × Nat × Str} (h : tupleLt a b = true) :
    a.1 < b.1 ∨ (a.1 = b.1 ∧ a.2.1 < b.2.1) ∨
      (a.1 = b.1 ∧ a.2.1 = b.2.1 ∧ strLt a.2.2 b.2.2 = true) := by
  by_cases h1 : a.1 < b.1
  · exact Or.inl h1
  · by_cases h2 : b.1 < a.1
    · simp [tupleLt, h1, h2] at h
    · by_cases h3 : a.2.1 < b.2.1
      · exact Or.inr (Or.inl ⟨by omega, h3⟩)
      · by_cases h4 : b.2.1 < a.2.1
        · simp [tupleLt, h1, h2, h3, h4] at h
        · exact Or.inr (Or.inr ⟨by omega, by omega,
            by simpa [tupleLt, h1, h2, h3, h4] using h⟩)

lemma tupleLt_of_parts {a b : Nat × Nat × Str}
    (h : a.1 < b.1 ∨ (a.1 = b.1 ∧ a.2.1 < b.2.1) ∨
      (a.1 = b.1 ∧ a.2.1 = b.2.1 ∧ strLt a.2.2 b.2.2 = true)) :
    tupleLt a b = true := by
  rcases h with h | ⟨h1, h2⟩ | ⟨h1, h2, h3⟩
  · simp [tupleLt, h]
  · simp [tupleLt, h1, h2, Nat.lt_irrefl]
  · simp [tupleLt, h1, h2, h3, Nat.lt_irrefl]

lemma tupleLt_cotrans {a c : Nat × Nat × Str} (h : tupleLt a c = true)
    (b : Nat × Nat × Str) : tupleLt a b = true ∨ tupleLt b c = true := by
  rcases tupleLt_inv h with h1 | ⟨h1, h2⟩ | ⟨h1, h2, h3⟩
  · by_cases hb : a.1 < b.1
    · exact Or.inl (tupleLt_of_parts (Or.inl hb))
    · exact Or.inr (tupleLt_of_parts (Or.inl (by omega)))
  · by_cases hb : a.1 < b.1
    · exact Or.inl (tupleLt_of_parts (Or.inl hb))
    · by_cases hb2 : b.1 < a.1
      · exact Or.inr (tupleLt_of_parts (Or.inl (by omega)))
      · by_cases hb3 : a.2.1 < b.2.1
        · exact Or.inl (tupleLt_of_parts (Or.inr (Or.inl ⟨by omega, hb3⟩)))
        · exact Or.inr (tupleLt_of_parts (Or.inr (Or.inl ⟨by omega, by omega⟩)))
  · by_cases hb : a.1 < b.1
    · exact Or.inl (tupleLt_of_parts (Or.inl hb))
    · by_cases hb2 : b.1 < a.1
      · exact Or.inr (tupleLt_of_parts (Or.inl (by omega)))
      · by_cases hb3 : a.2.1 < b.2.1
        · exact Or.inl (tupleLt_of_parts (Or.inr (Or.inl ⟨by omega, hb3⟩)))
        · by_cases hb4 : b.2.1 < a.2.1
          · exact Or.inr (tupleLt_of_parts (Or.inr (Or.inl ⟨by omega, by omega⟩)))
          · rcases strLt_cotrans _ _ h3 b.2.2 with h5 | h5
            · exact Or.inl (tupleLt_of_parts (Or.inr (Or.inr ⟨by omega, by omega, h5⟩)))
            · exact Or.inr (tupleLt_of_parts (Or.inr (Or.inr ⟨by omega, by omega, h5⟩)))

lemma pickTop_mem : ∀ (xs : List (Nat × Nat × Str)) (acc),
    pickTop acc xs = acc ∨ pickTop acc xs ∈ xs := by
  intro xs
  induction xs with
  | nil => intro acc; exact Or.inl rfl
  | cons x xs ih =>
      intro acc
      simp only [pickTop]
      rcases ih (if tupleLt acc x then x else acc) with h | h
      · rw [h]
        by_cases hx : tupleLt acc x = true
        · simp [hx]
        · simp [hx]
      · exact Or.inr (List.mem_cons_of_mem _ h)

lemma strLt_asym : ∀ a b, strLt a b = true → strLt b a = false := by
  intro a
  induction a with
  | nil =>
      intro b hb
      cases b with
      | nil => rfl
      | cons y ys => rfl
  | cons x as ih =>
      intro b hb
      cases b with
      | nil => exact Bool.noConfusion hb
      | cons y ys =>
          rcases strLt_inv hb with h | ⟨heq, hrec⟩
          · rw [strLt_cons, if_neg (by omega : ¬ y.toNat < x.toNat),
              if_pos (by omega : x.toNat < y.toNat)]
          · rw [strLt_cons_of_eq _ _ (by omega)]
            exact ih ys hrec

lemma tupleLt_asym {a b : Nat × Nat × Str} (h : tupleLt a b = true) :
    tupleLt b a = false := by
  rcases tupleLt_inv h with h1 | ⟨h1, h2⟩ | ⟨h1, h2, h3⟩
  · simp [tupleLt, show ¬ b.1 < a.1 by omega, show a.1 < b.1 from h1]
  · simp [tupleLt, show ¬ b.1 < a.1 by omega, show ¬ a.1 < b.1 by omega,
      show ¬ b.2.1 < a.2.1 by omega, show a.2.1 < b.2.1 from h2]
  · simp [tupleLt, show ¬ b.1 < a.1 by omega, show ¬ a.1 < b.1 by omega,
      show ¬ b.2.1 < a.2.1 by omega, show ¬ a.2.1 < b.2.1 by omega,
      strLt_asym _ _ h3]

lemma pickTop_not_lt : ∀ (xs : List (Nat × Nat × Str)) (acc y),
    (y = acc ∨ y ∈ xs) → tupleLt (pickTop acc xs) y = false := by
  intro xs
  induction xs with
  | nil =>
      intro acc y hy
      rcases hy with rfl | hy
      · exact tupleLt_irrefl y
      · simp at hy
  | cons x xs ih =>
      intro acc y hy
      simp only [pickTop]
      set acc' := if tupleLt acc x then x else acc with hacc'
      have hacc_cases : (acc' = x ∧ tupleLt acc x = true) ∨
          (acc' = acc ∧ tupleLt acc x = false) := by
        by_cases h : tupleLt acc x = true
        · exact Or.inl ⟨by simp [hacc', h], h⟩
        · exact Or.inr ⟨by simp [hacc', h], by simpa using h⟩
      have hstep : ∀ z, (z = acc ∨ z = x) → tupleLt (pickTop acc' xs) z = false := by
        intro z hz
        have hnot_acc' : tupleLt (pickTop acc' xs) acc' = false :=
          ih acc' acc' (Or.inl rfl)
        by_contra hlt
        have hlt' : tupleLt (pickTop acc' xs) z = true := by
          revert hlt; cases tupleLt (pickTop acc' xs) z <;> simp
        rcases tupleLt_cotrans hlt' acc' with h | h
        · rw [hnot_acc'] at h; exact Bool.noConfusion h
        · rcases hacc_cases with ⟨h', hax⟩ | ⟨h', hax⟩
          · rw [h'] at h
            rcases hz with rfl | rfl
            · rw [tupleLt_asym hax] at h; exact Bool.noConfusion h
            · rw [tupleLt_irrefl] at h; exact Bool.noConfusion h
          · rw [h'] at h
            rcases hz with rfl | rfl
            · rw [tupleLt_irrefl] at h; exact Bool.noConfusion h
            · rw [hax] at h; exact Bool.noConfusion h
      rcases hy with rfl | hy
      · exact hstep y (Or.inl rfl)
      · rcases List.mem_cons.mp hy with rfl | hy
        · exact hstep y (Or.inr rfl)
        · exact ih acc' y (Or.inr hy)

lemma tupleLt_false_score {a b : Nat × Nat × Str}
    (h : tupleLt a b = false) : b.1 ≤ a.1 := by
  by_contra hlt
  have : tupleLt a b = true := tupleLt_of_parts (Or.inl (by omega))
  rw [h] at this
  exact Bool.noConfusion this

lemma tupleLt_false_idx {a b : Nat × Nat × Str}
    (h : tupleLt a b = false) (hs : a.1 = b.1) : b.2.1 ≤ a.2.1 := by
  by_contra hlt
  have : tupleLt a b = true :=
    tupleLt_of_parts (Or.inr (Or.inl ⟨hs, by omega⟩))
  rw [h] at this
  exact Bool.noConfusion this

lemma scoreFrom_mem_elim : ∀ (ls : List Str) (i : Nat) (x : Nat × Nat × Str),
    x ∈ scoreFrom i ls →
      ∃ j, j < ls.length ∧ x = (linkScore (ls.getD j []), i + j, ls.getD j []) := by
  intro ls
  induction ls with
  | nil => intro i x hx; simp [scoreFrom] at hx
  | cons l ls ih =>
      intro i x hx
      rcases List.mem_cons.mp hx with rfl | hx
      · exact ⟨0, by simp, by simp [List.getD]⟩
      · obtain ⟨j, hj, rfl⟩ := ih (i + 1) x hx
        refine ⟨j + 1, by simp only [List.length_cons]; omega, ?_⟩
        have harith : i + 1 + j = i + (j + 1) := by omega
        rw [harith]
        rfl

lemma scoreFrom_mem_intro : ∀ (ls : List Str) (i j : Nat), j < ls.length →
    (linkScore (ls.getD j []), i + j, ls.getD j []) ∈ scoreFrom i ls := by
  intro ls
  induction ls with
  | nil => intro i j hj; simp at hj
  | cons l ls ih =>
      intro i j hj
      cases j with
      | zero => exact List.mem_cons_self _ _
      | succ j =>
          have harith : i + (j + 1) = i + 1 + j := by omega
          rw [harith]
          exact List.mem_cons_of_mem _ (ih (i + 1) j (by simpa using hj))

lemma getD_mem : ∀ (l : List Str) (i : Nat), i < l.length → l.getD i [] ∈ l := by
  intro l
  induction l with
  | nil => intro i hi; simp at hi
  | cons a l ih =>
      intro i hi
      cases i with
      | zero => exact List.mem_cons_self _ _
      | succ i => exact List.mem_cons_of_mem _ (ih i (by simpa using hi))

/-- The head of the descending sort of `scored` is the link at the
greatest index among those attaining the maximal timestamp. -/
lemma selectLatest_max_spec (links : List Str) (h : links ≠ []) :
    ∃ i, i < links.length ∧
      selectLatestReportLink links = some (links.getD i []) ∧
      (∀ j, j < links.length →
        linkScore (links.getD j []) ≤ linkScore (links.getD i [])) ∧
      (∀ j, j < links.length →
        linkScore (links.getD j []) = linkScore (links.getD i []) → j ≤ i) := by
  cases links with
  | nil => exact absurd rfl h
  | cons l ls =>
      have hsel : selectLatestReportLink (l :: ls)
          = some (pickTop (linkScore l, 0, l) (scoreFrom 1 ls)).2.2 := rfl
      have hmem : pickTop (linkScore l, 0, l) (scoreFrom 1 ls)
          ∈ scoreFrom 0 (l :: ls) := by
        rcases pickTop_mem (scoreFrom 1 ls) (linkScore l, 0, l) with h' | h'
        · rw [h']; exact List.mem_cons_self _ _
        · exact List.mem_cons_of_mem _ h'
      obtain ⟨i, hi, hx⟩ := scoreFrom_mem_elim (l :: ls) 0 _ hmem
      have hnot : ∀ y ∈ scoreFrom 0 (l :: ls),
          tupleLt (pickTop (linkScore l, 0, l) (scoreFrom 1 ls)) y = false := by
        intro y hy
        rcases List.mem_cons.mp hy with rfl | hy
        · exact pickTop_not_lt _ _ _ (Or.inl rfl)
        · exact pickTop_not_lt _ _ _ (Or.inr hy)
      refine ⟨i, hi, ?_, ?_, ?_⟩
      · rw [hsel, hx]
      · intro j hj
        have hy := scoreFrom_mem_intro (l :: ls) 0 j hj
        have := tupleLt_false_score (hnot _ hy)
        rw [hx] at this
        simpa using this
      · intro j hj hscore
        have hy := scoreFrom_mem_intro (l :: ls) 0 j hj
        have := tupleLt_false_idx (hnot _ hy) (by rw [hx]; simpa using hscore.symm)
        rw [hx] at this
        simpa using this

/-- Claim C1, counterexample: two links with identical extracted
timestamps (neither filename yields a date), for which
`_select_latest_report_link` returns the link appearing later in the
input list, not the earlier one: `scored.sort(reverse=True)` also
reverses the index tie-break. -/
theorem selectLatest_tie_cex :
    linkScore "https://example.com/injury-a.pdf".toList
        = linkScore "https://example.com/injury-b.pdf".toList ∧
    selectLatestReportLink
        ["https://example.com/injury-a.pdf".toList,
         "https://example.com/injury-b.pdf".toList]
      = some "https://example.com/injury-b.pdf".toList ∧
    "https://example.com/injury-b.pdf".toList
      ≠ "https://example.com/injury-a.pdf".toList := by
  refine ⟨by decide, by decide, by decide⟩

/-- Claim C1, amended: `_select_latest_report_link` returns the link at
the greatest index among those attaining the maximal timestamp — for
equal extracted timestamps (including when none is parseable) the link
appearing later in the input list wins the tie, not the earlier one. -/
theorem selectLatest_tie_latest (links : List Str) (h : links ≠ []) :
    ∃ i, i < links.length ∧
      selectLatestReportLink links = some (links.getD i []) ∧
      (∀ j, j < links.length →
        linkScore (links.getD j []) ≤ linkScore (links.getD i [])) ∧
      (∀ j, j < links.length →
        linkScore (links.getD j []) = linkScore (links.getD i []) → j ≤ i) :=
  selectLatest_max_spec links h

/-- Witness for C1's amended theorem at a concrete two-link list. -/
theorem selectLatest_tie_latest_witness :
    ∃ i, i < (["https://example.com/injury-a.pdf".toList,
               "https://example.com/injury-b.pdf".toList] : List Str).length ∧
      selectLatestReportLink
          ["https://example.com/injury-a.pdf".toList,
           "https://example.com/injury-b.pdf".toList]
        = some ((["https://example.com/injury-a.pdf".toList,
                  "https://example.com/injury-b.pdf".toList] : List Str).getD i []) ∧
      (∀ j, j < (["https://example.com/injury-a.pdf".toList,
                  "https://example.com/injury-b.pdf".toList] : List Str).length →
        linkScore ((["https://example.com/injury-a.pdf".toList,
                     "https://example.com/injury-b.pdf".toList] : List Str).getD j [])
          ≤ linkScore ((["https://example.com/injury-a.pdf".toList,
                         "https://example.com/injury-b.pdf".toList] : List Str).getD i [])) ∧
      (∀ j, j < (["https://example.com/injury-a.pdf".toList,
                  "https://example.com/injury-b.pdf".toList] : List Str).length →
        linkScore ((["https://example.com/injury-a.pdf".toList,
                     "https://example.com/injury-b.pdf".toList] : List Str).getD j [])
          = linkScore ((["https://example.com/injury-a.pdf".toList,
                         "https://example.com/injury-b.pdf".toList] : List Str).getD i []) →
        j ≤ i) :=
  selectLatest_tie_latest
    ["https://example.com/injury-a.pdf".toList,
     "https://example.com/injury-b.pdf".toList] (by decide)

/-- Claim C7: `_select_latest_report_link` fails (raises, modelled as
`none`) exactly on the empty link list; every non-empty list yields a
URL, and one of the input links at that. -/
theorem selectLatest_errorBehaviour :
    selectLatestReportLink [] = none ∧
    ∀ links, links ≠ [] →
      ∃ u, selectLatestReportLink links = some u ∧ u ∈ links := by
  refine ⟨rfl, ?_⟩
  intro links h
  obtain ⟨i, hi, hsel, _, _⟩ := selectLatest_max_spec links h
  exact ⟨links.getD i [], hsel, getD_mem links i hi⟩

/-- Witness for C7 at a concrete one-link list. -/
theorem selectLatest_errorBehaviour_witness :
    selectLatestReportLink [] = none ∧
    ∃ u, selectLatestReportLink ["https://example.com/injury.pdf".toList]
        = some u ∧ u ∈ ["https://example.com/injury.pdf".toList] :=
  ⟨selectLatest_errorBehaviour.1,
   selectLatest_errorBehaviour.2 ["https://example.com/injury.pdf".toList]
     (by decide)⟩

/-- Claim C4: the page loop runs the table parser only when the line
parser added zero entries for that page.  When the line parser emitted
at least one entry, the page's result does not depend on the page's
tables at all (no table entry is ever added); when it emitted none, the
result is exactly the table fallback. -/
theorem pageFallback_strict :
    (∀ (s : PState) (lines : List Str)
        (tables tables' : List (List (List (Option Str)))),
      (runLines s lines).entries.length ≠ s.entries.length →
      processPage s ⟨lines, tables⟩ = processPage s ⟨lines, tables'⟩) ∧
    (∀ (s : PState) (lines : List Str)
        (tables : List (List (List (Option Str)))),
      (runLines s lines).entries.length = s.entries.length →
      processPage s ⟨lines, tables⟩ = processTables (runLines s lines) tables) := by
  constructor
  · intro s lines tables tables' hne
    simp [processPage, hne]
  · intro s lines tables heq
    simp [processPage, heq]

/-- Witness for C4: a page whose single line is a full header row emits
one line entry, so its result ignores the supplied table; a page with no
lines falls through to the table parser. -/
theorem pageFallback_strict_witness :
    processPage {}
        ⟨["01/15/2025 7:00(ET) LAL@BOS LAL LeBron James Questionable Left ankle".toList],
          [[[some "Player Name".toList], [some "X".toList]]]⟩
      = processPage {}
          ⟨["01/15/2025 7:00(ET) LAL@BOS LAL LeBron James Questionable Left ankle".toList],
            []⟩ ∧
    processPage {} ⟨[], [[[some "Player Name".toList], [some "X".toList]]]⟩
      = processTables (runLines {} [])
          [[[some "Player Name".toList], [some "X".toList]]] :=
  ⟨pageFallback_strict.1 {}
      ["01/15/2025 7:00(ET) LAL@BOS LAL LeBron James Questionable Left ankle".toList]
      [[[some "Player Name".toList], [some "X".toList]]] [] (by decide),
   pageFallback_strict.2 {} []
      [[[some "Player Name".toList], [some "X".toList]]] (by decide)⟩

lemma dictLookup_dictInsert_self (d : List (Str × Str)) (k v : Str) :
    dictLookup (dictInsert d k v) k = some v := by
  induction d with
  | nil => simp [dictInsert, dictLookup, List.find?]
  | cons p rest ih =>
      obtain ⟨k0, v0⟩ := p
      by_cases h : (k0 == k) = true
      · simp [dictInsert, h, dictLookup, List.find?]
      · simp only [dictInsert, Bool.not_eq_true] at h ⊢
        rw [if_neg (by simp [h])]
        simp [dictLookup, List.find?, h] at ih ⊢
        exact ih

lemma dictLookup_dictInsert_ne (d : List (Str × Str)) (k v k' : Str)
    (h : k' ≠ k) :
    dictLookup (dictInsert d k v) k' = dictLookup d k' := by
  induction d with
  | nil =>
      have hne : (k == k') = false := by
        simpa using fun hh => h hh.symm
      simp [dictInsert, dictLookup, List.find?, hne]
  | cons p rest ih =>
      obtain ⟨k0, v0⟩ := p
      by_cases h0 : (k0 == k) = true
      · have hk0 : k0 = k := by simpa using h0
        subst hk0
        simp [dictInsert, dictLookup, List.find?,
          show (k0 == k') = false by simpa using fun hh => h hh.symm]
      · rw [show dictInsert ((k0, v0) :: rest) k v
            = (k0, v0) :: dictInsert rest k v by simp [dictInsert, h0]]
        by_cases h1 : (k0 == k') = true
        · simp [dictLookup, List.find?, h1]
        · simp only [dictLookup, List.find?, h1] at ih ⊢
          exact ih

lemma buildRowAux_raw_frozen (mapping : List (Nat × Str)) (nh : List Str) :
    ∀ (vs : List Str) (idx : Nat) (e : Entry) (raw : List (Str × Str)) (k : Str),
    (∀ j, j < vs.length → rowKey nh (idx + j) ≠ k) →
    dictLookup (buildRowAux mapping nh idx vs e raw).2 k = dictLookup raw k := by
  intro vs
  induction vs with
  | nil => intro idx e raw k _; rfl
  | cons v vs ih =>
      intro idx e raw k hk
      show dictLookup (buildRowAux mapping nh (idx + 1) vs _
        (dictInsert raw (rowKey nh idx) v)).2 k = dictLookup raw k
      rw [ih (idx + 1) _ _ k (fun j hj => by
        have := hk (j + 1) (by simpa using Nat.succ_lt_succ hj)
        rwa [show idx + (j + 1) = idx + 1 + j by omega] at this)]
      exact dictLookup_dictInsert_ne _ _ _ _ (fun hh => by
        have := hk 0 (by simp)
        rw [Nat.add_zero] at this
        exact this hh.symm)

lemma buildRowAux_raw_lookup (mapping : List (Nat × Str)) (nh : List Str) :
    ∀ (vs : List Str) (idx : Nat) (e : Entry) (raw : List (Str × Str)) (j : Nat),
    j < vs.length →
    (∀ j', j' < vs.length → j' ≠ j → rowKey nh (idx + j') ≠ rowKey nh (idx + j)) →
    dictLookup (buildRowAux mapping nh idx vs e raw).2 (rowKey nh (idx + j))
      = some (vs.getD j []) := by
  intro vs
  induction vs with
  | nil => intro idx e raw j hj _; simp at hj
  | cons v vs ih =>
      intro idx e raw j hj hdist
      cases j with
      | zero =>
          show dictLookup (buildRowAux mapping nh (idx + 1) vs _
            (dictInsert raw (rowKey nh idx) v)).2 (rowKey nh (idx + 0)) = _
          rw [Nat.add_zero]
          rw [buildRowAux_raw_frozen mapping nh vs (idx + 1) _ _ _ (fun j' hj' => by
            have := hdist (j' + 1) (by simpa using Nat.succ_lt_succ hj')
              (by omega)
            rw [show idx + (j' + 1) = idx + 1 + j' by omega, Nat.add_zero] at this
            exact this)]
          exact dictLookup_dictInsert_self _ _ _
      | succ j =>
          show dictLookup (buildRowAux mapping nh (idx + 1) vs _
            (dictInsert raw (rowKey nh idx) v)).2 (rowKey nh (idx + (j + 1))) = _
          rw [show idx + (j + 1) = idx + 1 + j by omega]
          rw [ih (idx + 1) _ _ j (by simpa using hj) (fun j' hj' hne => by
            have := hdist (j' + 1) (by simpa using Nat.succ_lt_succ hj')
              (by omega)
            rw [show idx + (j' + 1) = idx + 1 + j' by omega,
              show idx + (j + 1) = idx + 1 + j by omega] at this
            exact this)]
          rfl

/-- Claim C8, counterexample: a table with two columns both labelled
`Status` — the `raw` map keys collide, the later cell overwrites the
earlier one, and the first cell's value `Out` is not recoverable from
`raw` at all (the built row did contain it). -/
theorem tableRaw_roundtrip_cex :
    (buildEntriesFromTable
        [[some "Status".toList, some "Status".toList, some "Player".toList],
         [some "Out".toList, some "Questionable".toList, some "A. Player".toList]]).length
      = 1 ∧
    (∀ e ∈ buildEntriesFromTable
        [[some "Status".toList, some "Status".toList, some "Player".toList],
         [some "Out".toList, some "Questionable".toList, some "A. Player".toList]],
      ∀ p ∈ e.raw.getD [], p.2 ≠ "Out".toList) ∧
    cleanCell (some "Out".toList) = "Out".toList := by
  refine ⟨by decide, by decide, by decide⟩

/-- Claim C8, amended: when the raw-map keys of a row (normalized header
label, or `col_<index>` fallback) are pairwise distinct, the `raw` map
of the entry built from that row recovers every cleaned cell value of
the row, keyed as described; with duplicate keys, later columns
overwrite earlier ones. -/
theorem tableRaw_roundtrip (mapping : List (Nat × Str)) (nh : List Str)
    (rowValues : List Str)
    (hdist : ∀ j, j < rowValues.length → ∀ j', j' < rowValues.length →
      j' ≠ j → rowKey nh j' ≠ rowKey nh j) :
    ∀ j, j < rowValues.length →
      dictLookup ((mkRowEntry mapping nh rowValues).raw.getD []) (rowKey nh j)
        = some (rowValues.getD j []) := by
  intro j hj
  show dictLookup ((buildRowAux mapping nh 0 rowValues {} []).2) (rowKey nh j)
      = some (rowValues.getD j [])
  have := buildRowAux_raw_lookup mapping nh rowValues 0 {} [] j hj
    (fun j' hj' hne => by
      have := hdist j hj j' hj' hne
      simpa using this)
  simpa using this

lemma dropWhile_keeps_nonspace {l : Str} (h : ∃ c ∈ l, isSpace c = false) :
    ∃ c ∈ l.dropWhile isSpace, isSpace c = false := by
  induction l with
  | nil => simp at h
  | cons a l ih =>
      by_cases ha : isSpace a = true
      · rw [List.dropWhile_cons_of_pos ha]
        apply ih
        obtain ⟨c, hc, hcs⟩ := h
        rcases List.mem_cons.mp hc with rfl | hc
        · rw [ha] at hcs; exact Bool.noConfusion hcs
        · exact ⟨c, hc, hcs⟩
      · rw [List.dropWhile_cons_of_neg ha]
        exact ⟨a, List.mem_cons_self _ _, by simpa using ha⟩

lemma pyStrip_keeps_nonspace {l : Str} (h : ∃ c ∈ l, isSpace c = false) :
    ∃ c ∈ pyStrip l, isSpace c = false := by
  unfold pyStrip
  have h1 := dropWhile_keeps_nonspace h
  have h2 : ∃ c ∈ (l.dropWhile isSpace).reverse, isSpace c = false := by
    obtain ⟨c, hc, hcs⟩ := h1
    exact ⟨c, List.mem_reverse.mpr hc, hcs⟩
  have h3 := dropWhile_keeps_nonspace h2
  obtain ⟨c, hc, hcs⟩ := h3
  exact ⟨c, List.mem_reverse.mpr hc, hcs⟩

lemma pyStrip_ne_nil {l : Str} (h : ∃ c ∈ l, isSpace c = false) :
    pyStrip l ≠ [] := by
  obtain ⟨c, hc, _⟩ := pyStrip_keeps_nonspace h
  exact List.ne_nil_of_mem hc

lemma dropWhile_head_nonspace {l : Str} {c : Char} {cs : Str}
    (h : l.dropWhile isSpace = c :: cs) : isSpace c = false := by
  induction l with
  | nil => exact absurd h (by simp)
  | cons a l ih =>
      by_cases ha : isSpace a = true
      · rw [List.dropWhile_cons_of_pos ha] at h
        exact ih h
      · rw [List.dropWhile_cons_of_neg ha] at h
        cases h
        simpa using ha

lemma pyStrip_no_trailing_space {x y : Str} {c : Char}
    (h : pyStrip x = y ++ [c]) : isSpace c = false := by
  unfold pyStrip at h
  have h' : (x.dropWhile isSpace).reverse.dropWhile isSpace = c :: y.reverse := by
    have := congrArg List.reverse h
    rwa [List.reverse_reverse, List.reverse_append, List.reverse_singleton] at this
  exact dropWhile_head_nonspace h'

/-- A suffix produced after a mandatory whitespace run cannot be
all-whitespace when the whole line was stripped: the stripped line would
then end in a space. -/
lemma stripped_rest_not_all_space (x : Str) {pre ws rest : Str}
    (hcl : pyStrip x = pre ++ ws ++ rest) (hws : ws ≠ [])
    (hwsp : ∀ c ∈ ws, isSpace c = true)
    (hrest : ∀ c ∈ rest, isSpace c = true) : False := by
  rcases List.eq_nil_or_concat (ws ++ rest) with h | ⟨y, c, h⟩
  · exact hws (List.append_eq_nil.mp h).1
  · rw [List.concat_eq_append] at h
    have hc : c ∈ ws ++ rest := by rw [h]; simp
    have hcs : isSpace c = true := by
      rcases List.mem_append.mp hc with h' | h'
      · exact hwsp c h'
      · exact hrest c h'
    have : pyStrip x = (pre ++ y) ++ [c] := by
      rw [hcl, List.append_assoc] at *
      rw [show ws ++ rest = y ++ [c] from h]
      simp [List.append_assoc]
    rw [pyStrip_no_trailing_space this] at hcs
    exact Bool.noConfusion hcs

lemma exactDigits_decomp : ∀ (n : Nat) (s d r : Str),
    exactDigits n s = some (d, r) → s = d ++ r := by
  intro n
  induction n with
  | zero => intro s d r h; simp [exactDigits] at h; simp [h.1.symm, h.2.symm]
  | succ n ih =>
      intro s d r h
      cases s with
      | nil => simp [exactDigits, digit1] at h
      | cons c cs =>
          by_cases hc : c.isDigit = true
          · cases hd : exactDigits n cs with
            | none => simp [exactDigits, digit1, hc, hd] at h
            | some p =>
                obtain ⟨d', r'⟩ := p
                simp [exactDigits, digit1, hc, hd] at h
                obtain ⟨h1, h2⟩ := h
                rw [← h1, ← h2]
                have := ih cs d' r' hd
                simp [this]
          · simp [exactDigits, digit1, hc] at h

lemma litc_decomp {c : Char} {s r : Str} (h : litc c s = some r) :
    s = c :: r := by
  cases s with
  | nil => exact Option.noConfusion h
  | cons x xs =>
      simp only [litc] at h
      by_cases hx : (x == c) = true
      · rw [if_pos hx] at h
        cases h
        have hxc : x = c := by simpa using hx
        rw [hxc]
      · rw [if_neg hx] at h; exact Option.noConfusion h

lemma wsPlus_decomp {s r : Str} (h : wsPlus s = some r) :
    ∃ w, s = w ++ r ∧ w ≠ [] ∧ ∀ c ∈ w, isSpace c = true := by
  cases s with
  | nil => exact Option.noConfusion h
  | cons c cs =>
      simp only [wsPlus] at h
      by_cases hc : isSpace c = true
      · rw [if_pos hc] at h
        cases h
        refine ⟨c :: cs.takeWhile isSpace, ?_, by simp, ?_⟩
        · simp [List.takeWhile_append_dropWhile]
        · intro x hx
          rcases List.mem_cons.mp hx with rfl | hx
          · exact hc
          · exact List.mem_takeWhile_imp hx
      · rw [if_neg hc] at h; exact Option.noConfusion h

lemma tokPlus_decomp {s t r : Str} (h : tokPlus s = some (t, r)) :
    s = t ++ r := by
  cases s with
  | nil => exact Option.noConfusion h
  | cons c cs =>
      simp only [tokPlus] at h
      by_cases hc : isSpace c = true
      · rw [if_pos hc] at h; exact Option.noConfusion h
      · rw [if_neg hc] at h
        cases h
        simp [List.takeWhile_append_dropWhile]

lemma timeTail_decomp : ∀ {hd rr t r : Str}, timeTail hd rr = some (t, r) →
    hd ++ rr = t ++ r := by
  intro hd rr t r h
  cases h1 : litc ':' rr with
  | none => simp [timeTail, h1] at h
  | some r2 =>
  cases h2 : exactDigits 2 r2 with
  | none => simp [timeTail, h1, h2] at h
  | some p =>
  obtain ⟨mm, r3⟩ := p
  cases h3 : litc '(' r3 with
  | none => simp [timeTail, h1, h2, h3] at h
  | some r4 =>
  cases h4 : litc 'E' r4 with
  | none => simp [timeTail, h1, h2, h3, h4] at h
  | some r5 =>
  cases h5 : litc 'T' r5 with
  | none => simp [timeTail, h1, h2, h3, h4, h5] at h
  | some r6 =>
  cases h6 : litc ')' r6 with
  | none => simp [timeTail, h1, h2, h3, h4, h5, h6] at h
  | some r7 =>
  simp only [timeTail, h1, h2, h3, h4, h5, h6, Option.some.injEq, Prod.mk.injEq] at h
  obtain ⟨ht, hr⟩ := h
  rw [litc_decomp h1, exactDigits_decomp 2 r2 mm r3 h2, litc_decomp h3,
    litc_decomp h4, litc_decomp h5, litc_decomp h6, ← ht, ← hr]
  have het : "(ET)".toList = ['(', 'E', 'T', ')'] := rfl
  simp [het]

lemma timeTok_decomp {s t r : Str} (h : timeTok s = some (t, r)) :
    s = t ++ r := by
  cases s with
  | nil => exact Option.noConfusion h
  | cons a s' =>
      cases s' with
      | nil => exact Option.noConfusion h
      | cons b rest =>
          simp only [timeTok] at h
          by_cases hab : (a.isDigit && b.isDigit) = true
          · rw [if_pos hab] at h
            have := timeTail_decomp h
            simpa using this
          · rw [if_neg hab] at h
            by_cases ha : a.isDigit = true
            · rw [if_pos ha] at h
              have := timeTail_decomp h
              simpa using this
            · rw [if_neg ha] at h; exact Option.noConfusion h

lemma dateTok_decomp {s d r : Str} (h : dateTok s = some (d, r)) :
    s = d ++ r := by
  cases h1 : exactDigits 2 s with
  | none => simp [dateTok, h1] at h
  | some p =>
  obtain ⟨a, r1⟩ := p
  cases h2 : litc '/' r1 with
  | none => simp [dateTok, h1, h2] at h
  | some r2 =>
  cases h3 : exactDigits 2 r2 with
  | none => simp [dateTok, h1, h2, h3] at h
  | some q =>
  obtain ⟨b, r3⟩ := q
  cases h4 : litc '/' r3 with
  | none => simp [dateTok, h1, h2, h3, h4] at h
  | some r4 =>
  cases h5 : exactDigits 4 r4 with
  | none => simp [dateTok, h1, h2, h3, h4, h5] at h
  | some w =>
  obtain ⟨y, r5⟩ := w
  simp only [dateTok, h1, h2, h3, h4, h5, Option.some.injEq, Prod.mk.injEq] at h
  obtain ⟨hd, hr⟩ := h
  rw [exactDigits_decomp 2 s a r1 h1, litc_decomp h2,
    exactDigits_decomp 2 r2 b r3 h3, litc_decomp h4,
    exactDigits_decomp 4 r4 y r5 h5, ← hd, ← hr]
  simp

/-- The `(.*)$` group of the full-header regex sits after a mandatory
whitespace run: the matched line decomposes as
`prefix ++ whitespace ++ rest`. -/
lemma matchFullHeader_decomp {s d t m tm rest : Str}
    (h : matchFullHeader s = some (d, t, m, tm, rest)) :
    ∃ pre ws, s = pre ++ ws ++ rest ∧ ws ≠ [] ∧ ∀ c ∈ ws, isSpace c = true := by
  cases h1 : dateTok s with
  | none => simp [matchFullHeader, h1] at h
  | some p =>
  obtain ⟨d1, r1⟩ := p
  cases h2 : wsPlus r1 with
  | none => simp [matchFullHeader, h1, h2] at h
  | some r2 =>
  cases h3 : timeTok r2 with
  | none => simp [matchFullHeader, h1, h2, h3] at h
  | some q =>
  obtain ⟨t1, r3⟩ := q
  cases h4 : wsPlus r3 with
  | none => simp [matchFullHeader, h1, h2, h3, h4] at h
  | some r4 =>
  cases h5 : tokPlus r4 with
  | none => simp [matchFullHeader, h1, h2, h3, h4, h5] at h
  | some q2 =>
  obtain ⟨m1, r5⟩ := q2
  cases h6 : wsPlus r5 with
  | none => simp [matchFullHeader, h1, h2, h3, h4, h5, h6] at h
  | some r6 =>
  cases h7 : tokPlus r6 with
  | none => simp [matchFullHeader, h1, h2, h3, h4, h5, h6, h7] at h
  | some q3 =>
  obtain ⟨tm1, r7⟩ := q3
  cases h8 : wsPlus r7 with
  | none => simp [matchFullHeader, h1, h2, h3, h4, h5, h6, h7, h8] at h
  | some r8 =>
  simp only [matchFullHeader, h1, h2, h3, h4, h5, h6, h7, h8,
    Option.some.injEq, Prod.mk.injEq] at h
  obtain ⟨hd1, ht1, hm1, htm1, hrest⟩ := h
  obtain ⟨w1, hw1, _, _⟩ := wsPlus_decomp h2
  obtain ⟨w2, hw2, _, _⟩ := wsPlus_decomp h4
  obtain ⟨w3, hw3, _, _⟩ := wsPlus_decomp h6
  obtain ⟨w4, hw4, hw4ne, hw4sp⟩ := wsPlus_decomp h8
  refine ⟨d1 ++ w1 ++ t1 ++ w2 ++ m1 ++ w3 ++ tm1, w4, ?_, hw4ne, hw4sp⟩
  rw [dateTok_decomp h1, hw1, timeTok_decomp h3, hw2, tokPlus_decomp h5,
    hw3, tokPlus_decomp h7, hw4, ← hrest]
  simp [List.append_assoc]

/-- Same decomposition for the partial-header regex. -/
lemma matchPartialHeader_decomp {s t m tm rest : Str}
    (h : matchPartialHeader s = some (t, m, tm, rest)) :
    ∃ pre ws, s = pre ++ ws ++ rest ∧ ws ≠ [] ∧ ∀ c ∈ ws, isSpace c = true := by
  cases h1 : timeTok s with
  | none => simp [matchPartialHeader, h1] at h
  | some p =>
  obtain ⟨t1, r1⟩ := p
  cases h2 : wsPlus r1 with
  | none => simp [matchPartialHeader, h1, h2] at h
  | some r2 =>
  cases h3 : tokPlus r2 with
  | none => simp [matchPartialHeader, h1, h2, h3] at h
  | some q =>
  obtain ⟨m1, r3⟩ := q
  cases h4 : wsPlus r3 with
  | none => simp [matchPartialHeader, h1, h2, h3, h4] at h
  | some r4 =>
  cases h5 : tokPlus r4 with
  | none => simp [matchPartialHeader, h1, h2, h3, h4, h5] at h
  | some q2 =>
  obtain ⟨tm1, r5⟩ := q2
  cases h6 : wsPlus r5 with
  | none => simp [matchPartialHeader, h1, h2, h3, h4, h5, h6] at h
  | some r6 =>
  simp only [matchPartialHeader, h1, h2, h3, h4, h5, h6,
    Option.some.injEq, Prod.mk.injEq] at h
  obtain ⟨ht1, hm1, htm1, hrest⟩ := h
  obtain ⟨w1, hw1, _, _⟩ := wsPlus_decomp h2
  obtain ⟨w2, hw2, _, _⟩ := wsPlus_decomp h4
  obtain ⟨w3, hw3, hw3ne, hw3sp⟩ := wsPlus_decomp h6
  refine ⟨t1 ++ w1 ++ m1 ++ w2 ++ tm1, w3, ?_, hw3ne, hw3sp⟩
  rw [timeTok_decomp h1, hw1, tokPlus_decomp h3, hw2, tokPlus_decomp h5,
    hw3, ← hrest]
  simp [List.append_assoc]

/-- Stripped non-emptiness of `cleanInjuryLine`'s output: the cleaned
line is some `pyStrip` image and non-empty. -/
lemma cleanInjuryLine_stripped {l cl : Str} (h : cleanInjuryLine l = some cl) :
    (∃ w, cl = pyStrip w) ∧ cl ≠ [] := by
  unfold cleanInjuryLine at h
  by_cases h1 : l.isEmpty = true
  · rw [if_pos h1] at h; exact Option.noConfusion h
  · rw [if_neg h1] at h
    by_cases h2 : (pageCore l).isSome = true
    · rw [if_pos h2] at h; exact Option.noConfusion h
    · rw [if_neg h2] at h
      unfold optOfStr at h
      by_cases h3 : (pyStrip (stripSuf unspacedMarkerSuffix
          (stripSuf spacedMarkerSuffix l))).isEmpty = true
      · rw [if_pos h3] at h; exact Option.noConfusion h
      · rw [if_neg h3] at h
        cases h
        refine ⟨⟨_, rfl⟩, ?_⟩
        intro hnil
        rw [hnil] at h3
        exact h3 rfl

lemma findStatus_mem : ∀ (opts : List Str) (text s : Str) (i : Nat),
    findStatus opts text = some (s, i) → s ∈ opts := by
  intro opts
  induction opts with
  | nil => intro text s i h; exact Option.noConfusion h
  | cons o os ih =>
      intro text s i h
      simp only [findStatus] at h
      cases hr : reSearchWord o text with
      | some j =>
          rw [hr] at h
          cases h
          exact List.mem_cons_self _ _
      | none =>
          rw [hr] at h
          exact List.mem_cons_of_mem _ (ih text s i h)

/-- A status returned by `_parse_player_status_reason` is always a
verbatim member of `STATUS_OPTIONS`. -/
lemma parsePSR_status_vocab {t s : Str}
    (h : (parsePlayerStatusReason t).2.1 = some s) : s ∈ STATUS_OPTIONS := by
  unfold parsePlayerStatusReason at h
  by_cases h1 : t.isEmpty = true
  · rw [if_pos h1] at h; exact Option.noConfusion h
  · rw [if_neg h1] at h
    cases hf : findStatus STATUS_OPTIONS t with
    | none => rw [hf] at h; exact Option.noConfusion h
    | some p =>
        obtain ⟨s0, i⟩ := p
        rw [hf] at h
        cases h
        exact findStatus_mem _ _ _ _ hf

/-- On input with a non-whitespace character, the split of the stripped
text always returns a non-empty player, or a status, or a reason. -/
lemma parsePSR_ok {t : Str} (h : ∃ c ∈ t, isSpace c = false) :
    truthy (parsePlayerStatusReason (pyStrip t)).1 = true ∨
    truthy (parsePlayerStatusReason (pyStrip t)).2.1 = true ∨
    truthy (parsePlayerStatusReason (pyStrip t)).2.2 = true := by
  have hne : pyStrip t ≠ [] := pyStrip_ne_nil h
  unfold parsePlayerStatusReason
  rw [if_neg (by simpa using hne)]
  cases hf : findStatus STATUS_OPTIONS (pyStrip t) with
  | some p =>
      obtain ⟨s0, i⟩ := p
      refine Or.inr (Or.inl ?_)
      have hs0 : s0 ∈ STATUS_OPTIONS := findStatus_mem _ _ _ _ hf
      have : s0 ≠ [] := by
        have hvocab : ∀ x ∈ STATUS_OPTIONS, x ≠ [] := by decide
        exact hvocab s0 hs0
      simp [truthy, this]
  | none =>
      refine Or.inl ?_
      have : pyStrip (pyStrip t) ≠ [] :=
        pyStrip_ne_nil (pyStrip_keeps_nonspace h)
      simp [truthy, this]

/-- The invariant of spec §3: at least one of player name, status,
reason is non-empty (Python truthiness). -/
def entryPSRok (e : Entry) : Prop :=
  truthy e.playerName = true ∨ truthy e.status = true ∨ truthy e.reason = true

instance (e : Entry) : Decidable (entryPSRok e) := by
  unfold entryPSRok; infer_instance

/-- The invariant of spec §3: a set status is a verbatim member of the
status vocabulary. -/
def entryStatusOk (e : Entry) : Prop :=
  ∀ s, e.status = some s → s ∈ STATUS_OPTIONS

/-- Combined line-parser entry invariant. -/
def entryInv (e : Entry) : Prop := entryPSRok e ∧ entryStatusOk e

lemma getD_mem_gen {α : Type} : ∀ (l : List α) (i : Nat) (d : α),
    i < l.length → l.getD i d ∈ l := by
  intro l
  induction l with
  | nil => intro i d h; simp at h
  | cons a l ih =>
      intro i d h
      cases i with
      | zero => exact List.mem_cons_self _ _
      | succ i => exact List.mem_cons_of_mem _ (ih i d (by simpa using h))

lemma getD_oob {α : Type} : ∀ (l : List α) (i : Nat) (d : α),
    ¬ i < l.length → l.getD i d = d := by
  intro l
  induction l with
  | nil => intro i d _; cases i <;> rfl
  | cons a l ih =>
      intro i d h
      cases i with
      | zero => simp at h
      | succ i => exact ih i d (by simp at h; omega)

lemma mem_set_cases {α : Type} : ∀ {l : List α} {i : Nat} {v x : α},
    x ∈ l.set i v → x = v ∨ x ∈ l := by
  intro l
  induction l with
  | nil => intro i v x h; simp at h
  | cons a l ih =>
      intro i v x h
      cases i with
      | zero =>
          rcases List.mem_cons.mp h with rfl | h
          · exact Or.inl rfl
          · exact Or.inr (List.mem_cons_of_mem _ h)
      | succ i =>
          rcases List.mem_cons.mp h with rfl | h
          · exact Or.inr (List.mem_cons_self _ _)
          · rcases ih h with h' | h'
            · exact Or.inl h'
            · exact Or.inr (List.mem_cons_of_mem _ h')

lemma applyCtx_playerName (e : Entry) (s : PState) :
    (applyInjuryContext e s).playerName = e.playerName := rfl

lemma applyCtx_status (e : Entry) (s : PState) :
    (applyInjuryContext e s).status = e.status := rfl

lemma applyCtx_reason (e : Entry) (s : PState) :
    (applyInjuryContext e s).reason = e.reason := rfl

lemma emitLineEntry_mem {s : PState} {e0 x : Entry}
    (hx : x ∈ (emitLineEntry s e0).entries) :
    x ∈ s.entries ∨ x = applyInjuryContext e0 s := by
  unfold emitLineEntry updateInjuryContext at hx
  simp only [List.mem_append, List.mem_singleton] at hx
  exact hx

lemma inv_applyCtx {e : Entry} (s : PState) (h : entryInv e) :
    entryInv (applyInjuryContext e s) := by
  obtain ⟨h1, h2⟩ := h
  constructor
  · unfold entryPSRok at h1 ⊢
    rwa [applyCtx_playerName, applyCtx_status, applyCtx_reason]
  · intro z hz
    rw [applyCtx_status] at hz
    exact h2 z hz

lemma inv_emit {s : PState} {e0 x : Entry}
    (h : ∀ e ∈ s.entries, entryInv e)
    (hx : x ∈ (emitLineEntry s e0).entries)
    (hok : entryInv e0) : entryInv x := by
  rcases emitLineEntry_mem hx with hx | rfl
  · exact h x hx
  · exact inv_applyCtx s hok

lemma contReason_ne_nil {o : Option Str} {cl : Str} (hcl : cl ≠ []) :
    contReason o cl ≠ [] := by
  unfold contReason
  by_cases h : (o.getD []).isEmpty = true
  · rw [if_pos h]; exact hcl
  · rw [if_neg h]; simp

lemma psr_inv {s' : PState} {t : Str}
    (hok : truthy (parsePlayerStatusReason t).1 = true ∨
      truthy (parsePlayerStatusReason t).2.1 = true ∨
      truthy (parsePlayerStatusReason t).2.2 = true) :
    entryInv (mkCurEntry s' (parsePlayerStatusReason t)) := by
  constructor
  · exact hok
  · intro z hz
    exact parsePSR_status_vocab hz

/-- The line loop preserves the entry invariant: every entry it appends
has a non-empty player, status or reason, with any status a verbatim
vocabulary member; mutating the last entry's reason on a continuation
line keeps both. -/
lemma stepLine_inv (s : PState) (raw : Str)
    (h : ∀ e ∈ s.entries, entryInv e) :
    ∀ e ∈ (stepLine s raw).entries, entryInv e := by
  intro e he
  simp only [stepLine] at he
  split at he
  · exact h e he
  · split at he
    · exact h e he
    · split at he
      · exact h e he
      · split at he
        · exact h e he
        · rename_i cl hclean
          split at he
          · rename_i d t mu tm rest hfull
            refine inv_emit h he (psr_inv ?_)
            apply parsePSR_ok
            obtain ⟨⟨w, hw⟩, hne⟩ := cleanInjuryLine_stripped hclean
            obtain ⟨pre, ws, hdec, hwsne, hwssp⟩ := matchFullHeader_decomp hfull
            by_contra hall
            push_neg at hall
            refine stripped_rest_not_all_space w (hw ▸ hdec) hwsne hwssp ?_
            intro c hc
            have := hall c hc
            revert this
            cases isSpace c <;> simp
          · split at he
            · rename_i t mu tm rest hpart
              refine inv_emit h he (psr_inv ?_)
              apply parsePSR_ok
              obtain ⟨⟨w, hw⟩, hne⟩ := cleanInjuryLine_stripped hclean
              obtain ⟨pre, ws, hdec, hwsne, hwssp⟩ := matchPartialHeader_decomp hpart
              by_contra hall
              push_neg at hall
              refine stripped_rest_not_all_space w (hw ▸ hdec) hwsne hwssp ?_
              intro c hc
              have := hall c hc
              revert this
              cases isSpace c <;> simp
            · split at he
              · split at he
                · exact h e he
                · rename_i i hlast
                  rcases mem_set_cases he with rfl | he
                  · obtain ⟨⟨w, hw⟩, hne⟩ := cleanInjuryLine_stripped hclean
                    constructor
                    · refine Or.inr (Or.inr ?_)
                      simp [truthy, contReason_ne_nil hne]
                    · intro z hz
                      simp only at hz
                      by_cases hi : i < s.entries.length
                      · exact (h _ (getD_mem_gen s.entries i {} hi)).2 z hz
                      · rw [getD_oob s.entries i {} hi] at hz
                        exact Option.noConfusion hz
                  · exact h e he
              · split at he
                · exact h e he
                · rename_i t0 restToks hsplit
                  split at he
                  · split at he
                    · rename_i hguard
                      simp only [Bool.or_eq_true] at hguard
                      exact inv_emit h he (psr_inv (by tauto))
                    · exact h e he
                  · split at he
                    · rename_i hguard
                      simp only [Bool.or_eq_true] at hguard
                      exact inv_emit (fun x hx => h x hx) he (psr_inv (by tauto))
                    · exact h e he

/-- The whole per-page line loop preserves the entry invariant. -/
lemma runLines_inv (s : PState) (lines : List Str)
    (h : ∀ e ∈ s.entries, entryInv e) :
    ∀ e ∈ (runLines s lines).entries, entryInv e := by
  unfold runLines
  have main : ∀ (ls : List Str) (st : PState),
      (∀ e ∈ st.entries, entryInv e) →
      ∀ e ∈ (ls.foldl stepLine st).entries, entryInv e := by
    intro ls
    induction ls with
    | nil => exact fun st hst => hst
    | cons l ls ih => exact fun st hst => ih _ (stepLine_inv st l hst)
  exact main lines _ (fun e he => h e he)

/-- Claim C2, counterexample: the table parser emits an entry whose
playerName, status and reason are all empty — a row is kept as soon as
any cell (here the team cell) is non-empty. -/
theorem tableEntry_allEmpty_cex :
    (extractInjuryReportEntries
        [⟨[], [[[some "Team".toList, some "Player Name".toList],
                [some "LAL".toList, some "".toList]]]⟩]).length = 1 ∧
    ∀ e ∈ extractInjuryReportEntries
        [⟨[], [[[some "Team".toList, some "Player Name".toList],
                [some "LAL".toList, some "".toList]]]⟩], ¬ entryPSRok e := by
  refine ⟨by decide, by decide⟩

/-- Claim C2, amended: every entry appended by the line-oriented parser
has at least one of playerName, status, reason non-empty; table-derived
entries are not covered (they are emitted whenever any cleaned cell is
non-empty, even with all three of these fields empty). -/
theorem lineParser_entryNonEmpty (s : PState) (lines : List Str)
    (h : ∀ e ∈ s.entries, entryInv e) :
    ∀ e ∈ (runLines s lines).entries, entryPSRok e :=
  fun e he => (runLines_inv s lines h e he).1

/-- Concrete page lines for the C2 witness. -/
def c2Lines : List Str :=
  ["01/15/2025 7:00(ET) LAL@BOS LAL LeBron James Questionable Left ankle".toList,
   "soreness, day-to-day".toList]

/-- Witness for C2's amended theorem at the first entry of a concrete
page. -/
theorem lineParser_entryNonEmpty_witness :
    entryPSRok ((runLines {} c2Lines).entries.getD 0 {}) :=
  lineParser_entryNonEmpty {} c2Lines (by simp)
    ((runLines {} c2Lines).entries.getD 0 {}) (by decide)

/-- Claim C3, counterexample: a table-derived entry's status is the
verbatim cell text, here `Upset`, which is not a member of the status
vocabulary. -/
theorem tableStatus_vocab_cex :
    (extractInjuryReportEntries
        [⟨[], [[[some "Current Status".toList, some "Player Name".toList],
                [some "Upset".toList, some "A. Player".toList]]]⟩]).length = 1 ∧
    ∀ e ∈ extractInjuryReportEntries
        [⟨[], [[[some "Current Status".toList, some "Player Name".toList],
                [some "Upset".toList, some "A. Player".toList]]]⟩],
      e.status = some "Upset".toList ∧ ¬ entryStatusOk e := by
  refine ⟨by decide, ?_⟩
  have hall : ∀ e ∈ extractInjuryReportEntries
      [⟨[], [[[some "Current Status".toList, some "Player Name".toList],
              [some "Upset".toList, some "A. Player".toList]]]⟩],
      e.status = some "Upset".toList := by decide
  intro e he
  refine ⟨hall e he, fun hok => ?_⟩
  have := hok _ (hall e he)
  revert this
  decide

/-- Claim C3, amended: for entries emitted by the line-oriented parser a
set status is always a verbatim member of `STATUS_OPTIONS`; for
table-derived entries the status field is the verbatim cell text and can
be arbitrary. -/
theorem lineParser_statusVocab (s : PState) (lines : List Str)
    (h : ∀ e ∈ s.entries, entryInv e) :
    ∀ e ∈ (runLines s lines).entries, entryStatusOk e :=
  fun e he => (runLines_inv s lines h e he).2

/-- Concrete page lines for the C3 witness. -/
def c3Lines : List Str :=
  ["01/15/2025 7:00(ET) LAL@BOS LAL LeBron James Questionable Left ankle".toList,
   "BOS Jayson Tatum Out knee".toList]

/-- Witness for C3's amended theorem at the first entry of a concrete
page: its status is in the vocabulary. -/
theorem lineParser_statusVocab_witness :
    ((runLines {} c3Lines).entries.getD 0 {}).status
        = some "Questionable".toList ∧
    "Questionable".toList ∈ STATUS_OPTIONS :=
  ⟨by decide,
   lineParser_statusVocab {} c3Lines (by simp)
     ((runLines {} c3Lines).entries.getD 0 {}) (by decide)
     "Questionable".toList (by decide)⟩

/-- The continuation-line mutation of the aliased `last_entry` dict:
only its reason field changes. -/
def contUpdate (e : Entry) (cl : Str) : Entry :=
  { e with reason := some (contReason e.reason cl) }

/-- Claim C6: a cleaned line with no comma and no status label is a
continuation: with no last entry the state is returned unchanged (line
discarded); with a last entry at index `i`, only that entry's reason is
extended (space-joined), no entry is created, every other entry and all
context fields are untouched. -/
theorem continuationLine_appends (s : PState) (rawLine cl : Str)
    (h1 : (pyStrip rawLine).isEmpty = false)
    (h2 : strStarts "injury report".toList
      ((pyStrip rawLine).map Char.toLower) = false)
    (h3 : strStarts "gamedate".toList
      (((pyStrip rawLine).filter (fun c => c != ' ')).map Char.toLower) = false)
    (h4 : cleanInjuryLine (pyStrip rawLine) = some cl)
    (h5 : matchFullHeader cl = none)
    (h6 : matchPartialHeader cl = none)
    (h7 : cl.contains ',' = false)
    (h8 : hasStatusWord cl = false) :
    (s.lastIdx = none → stepLine s rawLine = s) ∧
    (∀ i, s.lastIdx = some i →
      stepLine s rawLine
        = { s with entries := s.entries.set i (contUpdate (s.entries.getD i {}) cl) }) := by
  have hstep : stepLine s rawLine
      = match s.lastIdx with
        | none => s
        | some i => { s with entries := s.entries.set i (contUpdate (s.entries.getD i {}) cl) } := by
    simp only [stepLine]
    split
    · rename_i hh; rw [h1] at hh; exact Bool.noConfusion hh
    · split
      · rename_i hh; rw [h2] at hh; exact Bool.noConfusion hh
      · split
        · rename_i hh; rw [h3] at hh; exact Bool.noConfusion hh
        · split
          · rename_i hh; rw [h4] at hh; exact Option.noConfusion hh
          · rename_i line hh
            rw [h4] at hh
            injection hh with hh
            subst hh
            split
            · rename_i hfull; rw [h5] at hfull; exact Option.noConfusion hfull
            · split
              · rename_i hpart; rw [h6] at hpart; exact Option.noConfusion hpart
              · split
                · cases hsl : s.lastIdx <;> rfl
                · rename_i hcond
                  exact absurd (by rw [h7, h8]; rfl) hcond
  constructor
  · intro hl; rw [hstep, hl]
  · intro i hl; rw [hstep, hl]

/-- Claim C10: in the data-row branch, a line that splits to a single
whitespace token with no comma (reached because it carries a status
label) updates the running team context to that token, emits no entry
and leaves the entry list unchanged; a subsequent data row emitting an
entry whose first token carries a comma (so the line names no team)
inherits that token as its team. -/
theorem dataRowTeam_context (s : PState) (rawLine cl t0 : Str)
    (h1 : (pyStrip rawLine).isEmpty = false)
    (h2 : strStarts "injury report".toList
      ((pyStrip rawLine).map Char.toLower) = false)
    (h3 : strStarts "gamedate".toList
      (((pyStrip rawLine).filter (fun c => c != ' ')).map Char.toLower) = false)
    (h4 : cleanInjuryLine (pyStrip rawLine) = some cl)
    (h5 : matchFullHeader cl = none)
    (h6 : matchPartialHeader cl = none)
    (h7 : (!cl.contains ',' && !hasStatusWord cl) = false)
    (h8 : splitWS cl = [t0])
    (h9 : t0.contains ',' = false) :
    stepLine s rawLine = { s with curTeam := some t0 } ∧
    (∀ (raw2 cl2 tok0 : Str) (restToks : List Str),
      (pyStrip raw2).isEmpty = false →
      strStarts "injury report".toList ((pyStrip raw2).map Char.toLower) = false →
      strStarts "gamedate".toList
        (((pyStrip raw2).filter (fun c => c != ' ')).map Char.toLower) = false →
      cleanInjuryLine (pyStrip raw2) = some cl2 →
      matchFullHeader cl2 = none →
      matchPartialHeader cl2 = none →
      (!cl2.contains ',' && !hasStatusWord cl2) = false →
      splitWS cl2 = tok0 :: restToks →
      tok0.contains ',' = true →
      (truthy (parsePlayerStatusReason cl2).1 ||
        truthy (parsePlayerStatusReason cl2).2.1 ||
        truthy (parsePlayerStatusReason cl2).2.2) = true →
      t0.isEmpty = false →
      (stepLine (stepLine s rawLine) raw2).entries
          = s.entries ++ [applyInjuryContext
              (mkCurEntry { s with curTeam := some t0 }
                (parsePlayerStatusReason cl2))
              { s with curTeam := some t0 }] ∧
      (applyInjuryContext
          (mkCurEntry { s with curTeam := some t0 }
            (parsePlayerStatusReason cl2))
          { s with curTeam := some t0 }).team = some t0) := by
  have hstep1 : stepLine s rawLine = { s with curTeam := some t0 } := by
    simp only [stepLine]
    split
    · rename_i hh; rw [h1] at hh; exact Bool.noConfusion hh
    · split
      · rename_i hh; rw [h2] at hh; exact Bool.noConfusion hh
      · split
        · rename_i hh; rw [h3] at hh; exact Bool.noConfusion hh
        · split
          · rename_i hh; rw [h4] at hh; exact Option.noConfusion hh
          · rename_i line hh
            rw [h4] at hh
            injection hh with hh
            subst hh
            split
            · rename_i hfull; rw [h5] at hfull; exact Option.noConfusion hfull
            · split
              · rename_i hpart; rw [h6] at hpart; exact Option.noConfusion hpart
              · split
                · rename_i hcond; rw [h7] at hcond; exact Bool.noConfusion hcond
                · split
                  · rename_i hnil; rw [h8] at hnil; exact List.noConfusion hnil
                  · rename_i t0' restToks' hsp
                    rw [h8] at hsp
                    injection hsp with hsp1 hsp2
                    subst hsp1
                    subst hsp2
                    split
                    · rename_i hcc; rw [h9] at hcc; exact Bool.noConfusion hcc
                    · split
                      · rename_i hguard
                        exact absurd hguard (by decide)
                      · rfl
  refine ⟨hstep1, ?_⟩
  intro raw2 cl2 tok0 restToks g1 g2 g3 g4 g5 g6 g6b g7 g8 g9 g10
  rw [hstep1]
  have hteam : (applyInjuryContext
      (mkCurEntry { s with curTeam := some t0 } (parsePlayerStatusReason cl2))
      { s with curTeam := some t0 }).team = some t0 := by
    simp [applyInjuryContext, mkCurEntry, fillField, truthy, g10]
  refine ⟨?_, hteam⟩
  simp only [stepLine]
  split
  · rename_i hh; rw [g1] at hh; exact Bool.noConfusion hh
  · split
    · rename_i hh; rw [g2] at hh; exact Bool.noConfusion hh
    · split
      · rename_i hh; rw [g3] at hh; exact Bool.noConfusion hh
      · split
        · rename_i hh; rw [g4] at hh; exact Option.noConfusion hh
        · rename_i line hh
          rw [g4] at hh
          injection hh with hh
          subst hh
          split
          · rename_i hfull; rw [g5] at hfull; exact Option.noConfusion hfull
          · split
            · rename_i hpart; rw [g6] at hpart; exact Option.noConfusion hpart
            · split
              · rename_i hcond
                rw [g6b] at hcond; exact Bool.noConfusion hcond
              · split
                · rename_i hnil; rw [g7] at hnil; exact List.noConfusion hnil
                · rename_i tok0' restToks' hsp
                  rw [g7] at hsp
                  injection hsp with hsp1 hsp2
                  subst hsp1
                  subst hsp2
                  split <;> rfl

lemma searchIdx_spec : ∀ (fuel i j : Nat) (needle hay : Str),
    searchIdx needle hay i fuel = some j →
    i ≤ j ∧ wordMatchAt needle hay j = true ∧
      ∀ k, i ≤ k → k < j → wordMatchAt needle hay k = false := by
  intro fuel
  induction fuel with
  | zero => intro i j needle hay h; exact Option.noConfusion h
  | succ fuel ih =>
      intro i j needle hay h
      simp only [searchIdx] at h
      by_cases hm : wordMatchAt needle hay i = true
      · rw [if_pos hm] at h
        cases h
        exact ⟨Nat.le_refl _, hm, fun k hk1 hk2 => absurd (Nat.lt_of_le_of_lt hk1 hk2)
          (Nat.lt_irrefl _)⟩
      · rw [if_neg hm] at h
        obtain ⟨h1, h2, h3⟩ := ih (i + 1) j needle hay h
        refine ⟨by omega, h2, fun k hk1 hk2 => ?_⟩
        by_cases hk : k = i
        · subst hk; simpa using hm
        · exact h3 k (by omega) hk2

lemma searchIdx_complete : ∀ (fuel i k : Nat) (needle hay : Str),
    i ≤ k → k < i + fuel → wordMatchAt needle hay k = true →
    (searchIdx needle hay i fuel).isSome = true := by
  intro fuel
  induction fuel with
  | zero => intro i k needle hay h1 h2; omega
  | succ fuel ih =>
      intro i k needle hay h1 h2 h3
      simp only [searchIdx]
      by_cases hm : wordMatchAt needle hay i = true
      · rw [if_pos hm]; rfl
      · rw [if_neg hm]
        have hik : i ≠ k := fun he => hm (he ▸ h3)
        exact ih (i + 1) k needle hay (by omega) (by omega) h3

lemma wordMatchAt_oob {needle hay : Str} (hne : needle ≠ []) {i : Nat}
    (hi : hay.length ≤ i) : wordMatchAt needle hay i = false := by
  cases needle with
  | nil => exact absurd rfl hne
  | cons p ps =>
      have : hay.drop i = [] := List.drop_eq_nil_of_le hi
      simp [wordMatchAt, this, ciStarts]

lemma find?_range_least : ∀ (n : Nat) (p : Nat → Bool) (j : Nat),
    j < n → p j = true → (∀ k, k < j → p k = false) →
    (List.range n).find? p = some j := by
  intro n
  induction n with
  | zero => intro p j hj _ _; exact absurd hj (Nat.not_lt_zero j)
  | succ n ih =>
      intro p j hj hp hmin
      rw [List.range_succ, List.find?_append]
      by_cases hjn : j < n
      · rw [ih p j hjn hp hmin]; rfl
      · have hj' : j = n := by omega
        rw [hj'] at hp ⊢
        have hnone : (List.range n).find? p = none := by
          rw [List.find?_eq_none]
          intro x hx
          rw [hmin x (by rw [hj']; exact List.mem_range.mp hx)]
          exact Bool.noConfusion
        rw [hnone]
        simp [List.find?, hp]

lemma find?_range_none (n : Nat) (p : Nat → Bool)
    (h : ∀ k, k < n → p k = false) : (List.range n).find? p = none := by
  rw [List.find?_eq_none]
  intro x hx
  rw [h x (List.mem_range.mp hx)]
  exact Bool.noConfusion

/-- The fuel-based leftmost scan agrees with a least-index search over
all candidate positions. -/
lemma reSearchWord_eq_find (needle hay : Str) (hne : needle ≠ []) :
    reSearchWord needle hay
      = (List.range (hay.length + 1)).find? (fun i => wordMatchAt needle hay i) := by
  cases hr : reSearchWord needle hay with
  | some j =>
      obtain ⟨_, hj, hmin⟩ := searchIdx_spec (hay.length + 1) 0 j needle hay hr
      have hjlt : j < hay.length + 1 := by
        by_contra hc
        rw [wordMatchAt_oob hne (by omega)] at hj
        exact Bool.noConfusion hj
      exact (find?_range_least (hay.length + 1) _ j hjlt hj
        (fun k hk => hmin k (Nat.zero_le k) hk)).symm
  | none =>
      refine (find?_range_none (hay.length + 1) _ (fun k hk => ?_)).symm
      by_contra hc
      have hk' : wordMatchAt needle hay k = true := by
        revert hc; cases wordMatchAt needle hay k <;> simp
      have := searchIdx_complete (hay.length + 1) 0 k needle hay
        (Nat.zero_le k) (by omega) hk'
      rw [show searchIdx needle hay 0 (hay.length + 1) = reSearchWord needle hay
        from rfl, hr] at this
      exact Bool.noConfusion this

/-- Modelled from the spec (§4.6): whether a status label occurs
whole-word, case-insensitively, anywhere in `text`. -/
def statusOccurs (s text : Str) : Bool :=
  (List.range (text.length + 1)).any (fun i => wordMatchAt s text i)

/-- Modelled from the spec (§4.6), word for word: all-none for empty
input; otherwise scan the Status Vocabulary in list order for a label
occurring anywhere (whole-word, case-insensitive); on a hit, split at
the leftmost occurrence, player and reason trimmed with empty mapped to
none, status the canonical label; with no hit, the whole trimmed text
becomes the player. -/
def spec_splitPlayerStatusReason (text : Str) :
    Option Str × Option Str × Option Str :=
  if text.isEmpty then (none, none, none)
  else
    match STATUS_OPTIONS.find? (fun s => statusOccurs s text) with
    | none => (some (pyStrip text), none, none)
    | some s =>
        match (List.range (text.length + 1)).find?
            (fun i => wordMatchAt s text i) with
        | none => (none, none, none)
        | some i =>
            (optOfStr (pyStrip (text.take i)), some s,
             optOfStr (pyStrip (text.drop (i + s.length))))

lemma findStatus_agrees : ∀ (opts : List Str) (text : Str),
    (∀ s ∈ opts, s ≠ []) →
    (∀ s i, findStatus opts text = some (s, i) →
      opts.find? (fun s' => statusOccurs s' text) = some s ∧
      reSearchWord s text = some i) ∧
    (findStatus opts text = none →
      opts.find? (fun s' => statusOccurs s' text) = none) := by
  intro opts
  induction opts with
  | nil =>
      intro text _
      exact ⟨fun s i h => Option.noConfusion h, fun _ => rfl⟩
  | cons o os ih =>
      intro text hne
      have hoc : statusOccurs o text = (reSearchWord o text).isSome := by
        unfold statusOccurs
        rw [reSearchWord_eq_find o text (hne o (List.mem_cons_self _ _))]
        cases hfind : (List.range (text.length + 1)).find?
            (fun i => wordMatchAt o text i) with
        | some v =>
            simp only [Option.isSome_some]
            exact List.any_eq_true.mpr
              ⟨v, List.mem_of_find?_eq_some hfind, List.find?_some hfind⟩
        | none =>
            simp only [Option.isSome_none]
            refine List.any_eq_false.mpr (fun x hx => ?_)
            have := List.find?_eq_none.mp hfind x hx
            simpa using this
      constructor
      · intro s i h
        simp only [findStatus] at h
        cases hr : reSearchWord o text with
        | some j =>
            rw [hr] at h
            cases h
            constructor
            · simp [List.find?, hoc, hr]
            · exact hr
        | none =>
            rw [hr] at h
            have := (ih text (fun s hs => hne s (List.mem_cons_of_mem _ hs))).1 s i h
            refine ⟨?_, this.2⟩
            simp only [List.find?, hoc, hr]
            exact this.1
      · intro h
        simp only [findStatus] at h
        cases hr : reSearchWord o text with
        | some j => rw [hr] at h; exact Option.noConfusion h
        | none =>
            rw [hr] at h
            have := (ih text (fun s hs => hne s (List.mem_cons_of_mem _ hs))).2 h
            simp only [List.find?, hoc, hr]
            exact this

/-- Claim C5: `_parse_player_status_reason` agrees with the spec's
description of `splitPlayerStatusReason` on every input, and produces
the spec's example split. -/
theorem splitPlayerStatusReason_spec :
    (∀ text, parsePlayerStatusReason text = spec_splitPlayerStatusReason text) ∧
    parsePlayerStatusReason "LeBron James Questionable Left ankle soreness".toList
      = (some "LeBron James".toList, some "Questionable".toList,
         some "Left ankle soreness".toList) := by
  constructor
  · intro text
    unfold parsePlayerStatusReason spec_splitPlayerStatusReason
    by_cases hemp : text.isEmpty = true
    · rw [if_pos hemp, if_pos hemp]
    · rw [if_neg hemp, if_neg hemp]
      have hvocab : ∀ s ∈ STATUS_OPTIONS, s ≠ [] := by decide
      cases hf : findStatus STATUS_OPTIONS text with
      | none =>
          rw [(findStatus_agrees STATUS_OPTIONS text hvocab).2 hf]
      | some p =>
          obtain ⟨s, i⟩ := p
          obtain ⟨hfind, hsearch⟩ :=
            (findStatus_agrees STATUS_OPTIONS text hvocab).1 s i hf
          rw [hfind]
          show (optOfStr (pyStrip (text.take i)), some s,
              optOfStr (pyStrip (text.drop (i + s.length))))
            = match (List.range (text.length + 1)).find?
                (fun j => wordMatchAt s text j) with
              | none => (none, none, none)
              | some j =>
                  (optOfStr (pyStrip (text.take j)), some s,
                   optOfStr (pyStrip (text.drop (j + s.length))))
          rw [← reSearchWord_eq_find s text
            (hvocab s (findStatus_mem _ _ _ _ hf)), hsearch]
  · decide

lemma firstSufIdx_spec (p : Str → Bool) : ∀ (l : Str) (i : Nat),
    firstSufIdx p l = some i →
    p (l.drop i) = true ∧ ∀ j, j < i → p (l.drop j) = false := by
  intro l
  induction l with
  | nil =>
      intro i h
      simp only [firstSufIdx] at h
      by_cases hp : p [] = true
      · rw [if_pos hp] at h
        cases h
        exact ⟨hp, fun j hj => absurd hj (Nat.not_lt_zero j)⟩
      · rw [if_neg hp] at h; exact Option.noConfusion h
  | cons c cs ih =>
      intro i h
      simp only [firstSufIdx] at h
      by_cases hp : p (c :: cs) = true
      · rw [if_pos hp] at h
        cases h
        exact ⟨hp, fun j hj => absurd hj (Nat.not_lt_zero j)⟩
      · rw [if_neg hp] at h
        cases hr : firstSufIdx p cs with
        | none => rw [hr] at h; exact Option.noConfusion h
        | some i' =>
            rw [hr] at h
            cases h
            obtain ⟨h1, h2⟩ := ih i' hr
            refine ⟨h1, fun j hj => ?_⟩
            cases j with
            | zero => simpa using hp
            | succ j =>
                have hj' : j < i' := by simpa using hj
                exact h2 j hj'

lemma firstSufIdx_none (p : Str → Bool) : ∀ (l : Str),
    firstSufIdx p l = none → ∀ j, p (l.drop j) = false := by
  intro l
  induction l with
  | nil =>
      intro h j
      simp only [firstSufIdx] at h
      by_cases hp : p [] = true
      · rw [if_pos hp] at h; exact Option.noConfusion h
      · rw [List.drop_nil]; simpa using hp
  | cons c cs ih =>
      intro h j
      simp only [firstSufIdx] at h
      by_cases hp : p (c :: cs) = true
      · rw [if_pos hp] at h; exact Option.noConfusion h
      · rw [if_neg hp] at h
        cases hr : firstSufIdx p cs with
        | some i' => rw [hr] at h; exact Option.noConfusion h
        | none =>
            cases j with
            | zero => simpa using hp
            | succ j => exact ih hr j

/-- A `$`-anchored `re.sub` removes exactly the leftmost matching
suffix. -/
lemma stripSuf_eq_take {p : Str → Bool} {l : Str} {i : Nat}
    (hi : p (l.drop i) = true) (hmin : ∀ j, j < i → p (l.drop j) = false) :
    stripSuf p l = l.take i := by
  unfold stripSuf
  cases hr : firstSufIdx p l with
  | none =>
      have := firstSufIdx_none p l hr i
      rw [hi] at this
      exact Bool.noConfusion this
  | some i0 =>
      obtain ⟨h1, h2⟩ := firstSufIdx_spec p l i0 hr
      have : i0 = i := by
        by_contra hne
        rcases Nat.lt_or_ge i0 i with hlt | hge
        · rw [hmin i0 hlt] at h1; exact Bool.noConfusion h1
        · have hlt : i < i0 := by omega
          rw [h2 i hlt] at hi; exact Bool.noConfusion hi
      rw [this]

/-- Without a matching suffix, the `re.sub` is the identity. -/
lemma stripSuf_id {p : Str → Bool} {l : Str}
    (h : ∀ j, p (l.drop j) = false) : stripSuf p l = l := by
  unfold stripSuf
  cases hr : firstSufIdx p l with
  | none => rfl
  | some i0 =>
      obtain ⟨h1, _⟩ := firstSufIdx_spec p l i0 hr
      rw [h i0] at h1
      exact Bool.noConfusion h1

/-- Claim C9: behaviour of `_clean_injury_line` — the empty line is
dropped; a line with a leading `Page N of M` marker (the `re.match`) is
dropped wherever the marker ends; the leftmost `$`-anchored trailing
marker (spaced variant, then unspaced variant on the result) is
stripped; the cleaned result is `none` exactly when what remains is
empty after trimming, so a returned line is never empty. -/
theorem cleanInjuryLine_behaviour :
    cleanInjuryLine [] = none ∧
    (∀ l, l ≠ [] → (pageCore l).isSome = true → cleanInjuryLine l = none) ∧
    (∀ l i, l ≠ [] → (pageCore l).isSome = false →
      spacedMarkerSuffix (l.drop i) = true →
      (∀ j, j < i → spacedMarkerSuffix (l.drop j) = false) →
      cleanInjuryLine l
        = optOfStr (pyStrip (stripSuf unspacedMarkerSuffix (l.take i)))) ∧
    (∀ l i, l ≠ [] → (pageCore l).isSome = false →
      unspacedMarkerSuffix ((stripSuf spacedMarkerSuffix l).drop i) = true →
      (∀ j, j < i →
        unspacedMarkerSuffix ((stripSuf spacedMarkerSuffix l).drop j) = false) →
      cleanInjuryLine l
        = optOfStr (pyStrip ((stripSuf spacedMarkerSuffix l).take i))) ∧
    (∀ l r, cleanInjuryLine l = some r → r ≠ []) := by
  have hne_isEmpty : ∀ (l : Str), l ≠ [] → l.isEmpty = false := by
    intro l hl
    cases l with
    | nil => exact absurd rfl hl
    | cons a l => rfl
  refine ⟨rfl, ?_, ?_, ?_, ?_⟩
  · intro l hl hcore
    unfold cleanInjuryLine
    rw [if_neg (by rw [hne_isEmpty l hl]; exact Bool.noConfusion), if_pos hcore]
  · intro l i hl hcore hi hmin
    unfold cleanInjuryLine
    rw [if_neg (by rw [hne_isEmpty l hl]; exact Bool.noConfusion),
      if_neg (by rw [hcore]; exact Bool.noConfusion),
      stripSuf_eq_take hi hmin]
  · intro l i hl hcore hi hmin
    unfold cleanInjuryLine
    rw [if_neg (by rw [hne_isEmpty l hl]; exact Bool.noConfusion),
      if_neg (by rw [hcore]; exact Bool.noConfusion),
      stripSuf_eq_take hi hmin]
  · intro l r h
    exact (cleanInjuryLine_stripped h).2

/-- Witness for C9 at concrete lines: a marker-only line is dropped, a
spaced trailing marker is stripped, an unspaced trailing marker left by
the first strip is stripped by the second, and a line reducing to
whitespace yields none. -/
theorem cleanInjuryLine_behaviour_witness :
    cleanInjuryLine "Page 3 of 4 roster".toList = none ∧
    cleanInjuryLine "Lakers roster Page 2 of 3".toList
      = optOfStr (pyStrip (stripSuf unspacedMarkerSuffix
          ("Lakers roster Page 2 of 3".toList.take 13))) ∧
    cleanInjuryLine "foo Page1of2 Page 3 of 4".toList
      = optOfStr (pyStrip ((stripSuf spacedMarkerSuffix
          "foo Page1of2 Page 3 of 4".toList).take 3)) ∧
    cleanInjuryLine "  Page 1 of 2 ".toList = none :=
  ⟨cleanInjuryLine_behaviour.2.1 "Page 3 of 4 roster".toList
      (by decide) (by decide),
   cleanInjuryLine_behaviour.2.2.1 "Lakers roster Page 2 of 3".toList 13
      (by decide) (by decide) (by decide) (by decide),
   cleanInjuryLine_behaviour.2.2.2.1 "foo Page1of2 Page 3 of 4".toList 3
      (by decide) (by decide) (by decide) (by decide),
   cleanInjuryLine_behaviour.2.2.1 "  Page 1 of 2 ".toList 0
      (by decide) (by decide) (by decide) (by decide)⟩

/-- Concrete state after the C10 single-token line `Out`. -/
def c10State : PState := { curTeam := some "Out".toList }

/-- Witness for C10: the line `Out` (single token, no comma, containing
a status label) updates the team context to `Out` and emits nothing; the
following data row `James, LeBron Questionable knee` emits an entry
whose team is the inherited `Out`. -/
theorem dataRowTeam_context_witness :
    stepLine {} "Out".toList = c10State ∧
    ((stepLine (stepLine {} "Out".toList) "James, LeBron Questionable knee".toList).entries
        = ([] : List Entry) ++ [applyInjuryContext
            (mkCurEntry c10State
              (parsePlayerStatusReason "James, LeBron Questionable knee".toList))
            c10State] ∧
      (applyInjuryContext
          (mkCurEntry c10State
            (parsePlayerStatusReason "James, LeBron Questionable knee".toList))
          c10State).team = some "Out".toList) :=
  ⟨(dataRowTeam_context {} "Out".toList "Out".toList "Out".toList
      (by decide) (by decide) (by decide) (by decide) (by decide) (by decide)
      (by decide) (by decide) (by decide)).1,
   (dataRowTeam_context {} "Out".toList "Out".toList "Out".toList
      (by decide) (by decide) (by decide) (by decide) (by decide) (by decide)
      (by decide) (by decide) (by decide)).2
      "James, LeBron Questionable knee".toList
      "James, LeBron Questionable knee".toList
      "James,".toList ["LeBron".toList, "Questionable".toList, "knee".toList]
      (by decide) (by decide) (by decide) (by decide) (by decide) (by decide)
      (by decide) (by decide) (by decide) (by decide) (by decide)⟩

/-- Concrete last entry for the C6 witness. -/
def c6Entry : Entry :=
  { playerName := some "LeBron James".toList, reason := some "knee".toList }

/-- Concrete parser state with that entry as `last_entry`. -/
def c6State : PState := { entries := [c6Entry], lastIdx := some 0 }

/-- Witness for C6: a concrete continuation line appended to a concrete
last entry, and discarded when there is no last entry. -/
theorem continuationLine_appends_witness :
    stepLine c6State "left ankle sprain".toList
      = { c6State with entries := [c6Entry].set 0 (contUpdate ([c6Entry].getD 0 {}) "left ankle sprain".toList) } ∧
    stepLine ({} : PState) "left ankle sprain".toList = {} :=
  ⟨(continuationLine_appends c6State
      "left ankle sprain".toList "left ankle sprain".toList
      (by decide) (by decide) (by decide) (by decide) (by decide) (by decide)
      (by decide) (by decide)).2 0 rfl,
   (continuationLine_appends {} "left ankle sprain".toList
      "left ankle sprain".toList (by decide) (by decide) (by decide) (by decide)
      (by decide) (by decide) (by decide) (by decide)).1 rfl⟩

/-- Witness for C8's amended theorem at the spec's own example table,
reading back the status column. -/
theorem tableRaw_roundtrip_witness :
    dictLookup ((mkRowEntry
        (mkMapping ["player name".toList, "current status".toList, "notes".toList])
        ["player name".toList, "current status".toList, "notes".toList]
        ["A. Player".toList, "Out".toList, "knee".toList]).raw.getD [])
        (rowKey ["player name".toList, "current status".toList, "notes".toList] 1)
      = some ((["A. Player".toList, "Out".toList, "knee".toList] : List Str).getD 1 []) :=
  tableRaw_roundtrip
    (mkMapping ["player name".toList, "current status".toList, "notes".toList])
    ["player name".toList, "current status".toList, "notes".toList]
    ["A. Player".toList, "Out".toList, "knee".toList]
    (by decide) 1 (by decide)




